import Mathlib

/-!
Verification of the XML codec and error-path reporting emitted by the
code generator (csharp/xmlization and java/reporting).

The generated C# deserializer walks an XmlReader over named elements and
either produces an instance or an error carrying a path of segments; the
generated serializer writes instances through an XmlWriter.  The Java
reporting code renders error paths as a JSON path and as a relative XPath.

We embed the behaviour of the generated code shallowly:

* the document is a list of tokens (element starts with a self-closing
  flag, element ends, typed content, insignificant whitespace/comments);
  an XmlWriter pair of start/end with no content in between collapses to
  a self-closing element, as System.Xml does;
* the schema is the data the generator bakes into the emitted code: wire
  names, property order, optionality, and per-type dispatch;
* the decoders mirror the emitted functions FromElement / FromSequence /
  the property-sequence while loop / the list while loop, with a fuel
  parameter for termination; errors carry a symbolic cause and a list of
  path segments, prepended exactly where the emitted code calls
  PrependSegment;
* namespaces are instantiated at their default (ns = null), under which
  TryElementName returns the element name as-is.
-/

namespace AasXmlization

/-! ## Primitive kinds and content tokens -/

/-- Primitive value kinds of the meta-model (PrimitiveType in the generator). -/
inductive PrimKind : Type where
  | bool
  | int
  | float
  | str
  | bytes
deriving DecidableEq, Repr

/-- Typed content of an XML text node, as the XmlReader's typed
ReadContentAsX methods see it.  The float payload is symbolic. -/
inductive CTok : Type where
  | cbool (b : Bool)
  | cint (i : Int)
  | cfloat (f : Int)
  | cstr (s : String)
  | cbytes (bs : List Nat)
deriving DecidableEq, Repr

/-- One node of the token stream the XmlReader cursor walks over.
A self-closing element is a single start token flagged isEmpty. -/
inductive Tok : Type where
  | start (name : String) (isEmpty : Bool)
  | endEl (name : String)
  | content (c : CTok)
  | ws
deriving DecidableEq, Repr

/-- Whether a token is an insignificant node (whitespace text or comment). -/
def isWsTok : Tok → Bool
  | .ws => true
  | _ => false

/-- SkipNoneWhitespaceAndComments: advance while the node is insignificant. -/
def skipWs : List Tok → List Tok
  | .ws :: r => skipWs r
  | r => r

/-- A stream with no insignificant nodes anywhere. -/
def noWs (r : List Tok) : Bool :=
  r.all (fun t => !isWsTok t)

/-! ## Schema descriptors

The descriptors mirror what the generator reads off the intermediate
symbol table when emitting code: a class has a wire element name and an
ordered property list; a property has a wire name, an optionality flag
and a type; a type is a primitive, an enumeration (its set of wire
strings), a nested concrete class decoded inline as a property sequence,
an interface decoded by dispatching on the inner element name over its
concrete implementers, or a list of such items. -/

mutual
inductive TypeDesc : Type where
  | prim (k : PrimKind)
  | enum (tbl : List String)
  | record (c : ClassDesc)
  | poly (impls : List ClassDesc)
  | listRec (c : ClassDesc)
  | listPoly (impls : List ClassDesc)

inductive PropDesc : Type where
  | mk (name : String) (optional : Bool) (ty : TypeDesc)

inductive ClassDesc : Type where
  | mk (name : String) (props : List PropDesc)
end

def PropDesc.name : PropDesc → String
  | .mk n _ _ => n

def PropDesc.optional : PropDesc → Bool
  | .mk _ o _ => o

def PropDesc.ty : PropDesc → TypeDesc
  | .mk _ _ t => t

def ClassDesc.name : ClassDesc → String
  | .mk n _ => n

def ClassDesc.props : ClassDesc → List PropDesc
  | .mk _ ps => ps

/-- Wire property names of a class are pairwise distinct (the generated
switch statement could not even compile with duplicate case labels). -/
def nodupNames : List PropDesc → Bool
  | [] => true
  | p :: ps => ps.all (fun q => q.name != p.name) && nodupNames ps

/-! ## Instances -/

/-- A decoded/encodable instance graph.  An object carries its class's
wire element name together with one slot per declared property in
declaration order; an unset slot is an absent optional property. -/
inductive Value : Type where
  | vbool (b : Bool)
  | vint (i : Int)
  | vfloat (f : Int)
  | vstr (s : String)
  | vbytes (bs : List Nat)
  | venum (lit : String)
  | vobj (clsName : String) (slots : List (Option Value))
  | vlist (items : List Value)

/-! ## Errors and path segments -/

/-- Path segment: Reporting.NameSegment / Reporting.IndexSegment. -/
inductive Seg : Type where
  | name (n : String)
  | index (i : Nat)
deriving DecidableEq, Repr

/-- Symbolic causes, one per error-message template of the emitted code.
Each constructor carries the data interpolated into the message. -/
inductive Cause : Type where
  /-- FromElement: expected an element for the class but hit end-of-file. -/
  | clsEOF (cls : String)
  /-- FromElement: expected an element for the class, other node kind. -/
  | clsUnexpectedNode (cls : String)
  /-- FromElement: element name differs from the class's wire name. -/
  | unexpectedElementName (cls got : String)
  /-- FromElement: end-of-file where the class's end element was due. -/
  | clsEndEOF (cls : String)
  /-- FromElement: other node kind where the class's end element was due. -/
  | clsEndUnexpectedNode (cls : String)
  /-- FromElement: end element name differs from the start name. -/
  | clsEndMismatch (expected got : String)
  /-- FromSequence: expected an element for a property but hit end-of-file. -/
  | propEOF (cls : String)
  /-- FromSequence switch default: element name not a property of the class. -/
  | unknownProperty (cls got : String)
  /-- FromSequence: end-of-file where a property's end element was due. -/
  | propEndEOF (cls prop : String)
  /-- FromSequence: other node kind where a property's end element was due. -/
  | propEndUnexpectedNode (cls prop : String)
  /-- FromSequence: a property's end element name differs from its start. -/
  | propEndMismatch (cls prop got : String)
  /-- FromSequence: a required property was never set. -/
  | missingRequired (cls prop : String)
  /-- Primitive/enum property: self-closing element but content required. -/
  | needsContent (cls prop : String)
  /-- Primitive/enum property: end-of-file where content was expected. -/
  | contentEOF (cls prop : String)
  /-- Primitive property: FormatException/XmlException from the typed read. -/
  | valueFormat (cls prop : String)
  /-- Enum property: FormatException from ReadContentAsString. -/
  | stringFormat (cls prop : String)
  /-- Enum property: the wire string maps to no literal. -/
  | unknownEnumLiteral (cls prop text : String)
  /-- Interface property: self-closing element where a child element was due. -/
  | polyEmpty (cls prop : String)
  /-- Interface property: end-of-file where a child element was due. -/
  | polyEOF (cls prop : String)
  /-- Interface FromElement: end-of-file where an element was due. -/
  | ifaceEOF
  /-- Interface FromElement: other node kind where an element was due. -/
  | ifaceUnexpectedNode
  /-- Interface FromElement switch default: name matches no implementer. -/
  | unknownVariant (got : String)
deriving DecidableEq, Repr

/-- Reporting.Error: a cause plus the segment list built by PrependSegment
calls as the failure unwinds (root-to-leaf order on return). -/
structure Err : Type where
  cause : Cause
  segments : List Seg
deriving DecidableEq, Repr

/-! ## Reader primitives -/

/-- Outcome of a typed ReadContentAsX call: a value plus the advanced
cursor, a FormatException/XmlException (caught by the emitted code), or
any other exception (propagates uncaught). -/
inductive RRes (α : Type) : Type where
  | ok (a : α) (r : List Tok)
  | fmtErr
  | fatal

/-- ReadWholeContentAsBase64: loop ReadContentAsBase64 into a growable
buffer until it returns 0 bytes; concatenates the available chunks. -/
def readBytes : List Tok → (List Nat × List Tok)
  | .content (.cbytes bs) :: r =>
    let p := readBytes r
    (bs ++ p.1, p.2)
  | r => ([], r)

/-- The typed content read for each primitive kind
(ReadContentAsBoolean/Long/Double/String, ReadWholeContentAsBase64).
At an end element the content is empty: a string read yields "" while the
other typed reads fail to convert; at a child element start the content
methods throw an exception the emitted code does not catch. -/
def readPrim (k : PrimKind) (r : List Tok) : RRes Value :=
  match k with
  | .bool =>
    match r with
    | .content (.cbool b) :: r1 => .ok (.vbool b) r1
    | .content _ :: _ => .fmtErr
    | .endEl _ :: _ => .fmtErr
    | .ws :: _ => .fmtErr
    | .start _ _ :: _ => .fatal
    | [] => .fatal
  | .int =>
    match r with
    | .content (.cint i) :: r1 => .ok (.vint i) r1
    | .content _ :: _ => .fmtErr
    | .endEl _ :: _ => .fmtErr
    | .ws :: _ => .fmtErr
    | .start _ _ :: _ => .fatal
    | [] => .fatal
  | .float =>
    match r with
    | .content (.cfloat f) :: r1 => .ok (.vfloat f) r1
    | .content _ :: _ => .fmtErr
    | .endEl _ :: _ => .fmtErr
    | .ws :: _ => .fmtErr
    | .start _ _ :: _ => .fatal
    | [] => .fatal
  | .str =>
    match r with
    | .content (.cstr s) :: r1 => .ok (.vstr s) r1
    | .content _ :: _ => .fmtErr
    | .endEl _ :: _ => .ok (.vstr "") r
    | .ws :: _ => .fmtErr
    | .start _ _ :: _ => .fatal
    | [] => .fatal
  | .bytes =>
    let p := readBytes r
    .ok (.vbytes p.1) p.2

/-- The switch over a class's property wire names: index and descriptor
of the first property whose wire name equals the reported name. -/
def findProp : List PropDesc → String → Option (Nat × PropDesc)
  | [], _ => none
  | p :: ps, nm =>
    if p.name == nm then some (0, p)
    else (findProp ps nm).map (fun jq => (jq.1 + 1, jq.2))

/-- The post-loop required-property check: the first property in
declaration order that is non-optional and whose slot is still unset. -/
def firstMissing : List PropDesc → List (Option Value) → Option String
  | p :: ps, s :: ss =>
    if !p.optional && s.isNone then some p.name else firstMissing ps ss
  | _, _ => none

/-- The interface dispatch switch: the implementer whose wire class name
equals the reported element name. -/
def findImpl : List ClassDesc → String → Option ClassDesc
  | [], _ => none
  | c :: cs, nm => if c.name == nm then some c else findImpl cs nm

/-! ## Decoder results

The emitted functions return a nullable instance and set an out-parameter
error; a DOut keeps both, so that their mutual exclusion is a theorem
rather than a constructor invariant.  An uncaught exception of the C#
code is the thrown outcome; outOfFuel is the artefact of the fuel. -/

inductive DOut : Type where
  | ret (err : Option Err) (val : Option Value) (r : List Tok)
  | thrown
  | outOfFuel

/-- Result of the property-sequence while loop: the slot assignment and
the cursor on normal exit, or the error returned from inside the loop. -/
inductive SOut : Type where
  | ok (slots : List (Option Value)) (r : List Tok)
  | err (e : Err)
  | thrown
  | outOfFuel

/-- Result of one property's case body inside the switch. -/
inductive POut : Type where
  | ok (v : Option Value) (r : List Tok)
  | err (e : Err)
  | thrown
  | outOfFuel

/-- Result of the list-property while loop. -/
inductive LOut : Type where
  | ok (items : List Value) (r : List Tok)
  | err (e : Err)
  | thrown
  | outOfFuel

/-! ## The deserialization implementation

One Lean function per emitted C# function shape, at ns = null:

* clsFromElement       — {Cls}FromElement
* interfaceFromElement — {IIntf}FromElement
* clsFromSequence      — {Cls}FromSequence
* seqLoop              — the property-sequence while loop inside
                         {Cls}FromSequence
* decodeProp           — the case body for one property inside the switch
* listLoop             — the while loop of a list-typed property's case
                         body; the dispatch is ClsFromElement for a
                         concrete item class without descendants and
                         {IIntf}FromElement otherwise
-/

mutual

def clsFromElement (fuel : Nat) (cd : ClassDesc) (r : List Tok) : DOut :=
  match fuel with
  | 0 => .outOfFuel
  | fuel + 1 =>
    let r1 := skipWs r
    match r1 with
    | [] => .ret (some ⟨.clsEOF cd.name, []⟩) none r1
    | .start nm isEmptyElement :: r2 =>
      if nm != cd.name then
        .ret (some ⟨.unexpectedElementName cd.name nm, []⟩) none r1
      else
        match clsFromSequence fuel cd isEmptyElement r2 with
        | .ret (some e) _ r3 => .ret (some e) none r3
        | .ret none v r3 =>
          let r4 := skipWs r3
          if isEmptyElement then .ret none v r4
          else
            match r4 with
            | [] => .ret (some ⟨.clsEndEOF cd.name, []⟩) none r4
            | .endEl en :: r5 =>
              if en != nm then .ret (some ⟨.clsEndMismatch nm en, []⟩) none r4
              else .ret none v r5
            | _ => .ret (some ⟨.clsEndUnexpectedNode cd.name, []⟩) none r4
        | .thrown => .thrown
        | .outOfFuel => .outOfFuel
    | _ => .ret (some ⟨.clsUnexpectedNode cd.name, []⟩) none r1

def interfaceFromElement (fuel : Nat) (impls : List ClassDesc) (r : List Tok) :
    DOut :=
  match fuel with
  | 0 => .outOfFuel
  | fuel + 1 =>
    let r1 := skipWs r
    match r1 with
    | [] => .ret (some ⟨.ifaceEOF, []⟩) none r1
    | .start nm _ :: _ =>
      match findImpl impls nm with
      | some c => clsFromElement fuel c r1
      | none => .ret (some ⟨.unknownVariant nm, []⟩) none r1
    | _ => .ret (some ⟨.ifaceUnexpectedNode, []⟩) none r1

def clsFromSequence (fuel : Nat) (cd : ClassDesc) (isEmptySequence : Bool)
    (r : List Tok) : DOut :=
  match fuel with
  | 0 => .outOfFuel
  | fuel + 1 =>
    match cd.props with
    | [] => .ret none (some (.vobj cd.name [])) r
    | _ :: _ =>
      let init : List (Option Value) := List.replicate cd.props.length none
      let step : SOut :=
        if isEmptySequence then .ok init r
        else
          let r1 := skipWs r
          if r1.isEmpty then .err ⟨.propEOF cd.name, []⟩
          else seqLoop fuel cd init r1
      match step with
      | .ok slots r2 =>
        match firstMissing cd.props slots with
        | some pname => .ret (some ⟨.missingRequired cd.name pname, []⟩) none r2
        | none => .ret none (some (.vobj cd.name slots)) r2
      | .err e => .ret (some e) none r
      | .thrown => .thrown
      | .outOfFuel => .outOfFuel

def seqLoop (fuel : Nat) (cd : ClassDesc) (slots : List (Option Value))
    (r : List Tok) : SOut :=
  match fuel with
  | 0 => .outOfFuel
  | fuel + 1 =>
    match r with
    | .start nm isEmptyProperty :: r1 =>
      match findProp cd.props nm with
      | none => .err ⟨.unknownProperty cd.name nm, []⟩
      | some jp =>
        match decodeProp fuel cd.name jp.2 isEmptyProperty r1 with
        | .err e => .err e
        | .thrown => .thrown
        | .outOfFuel => .outOfFuel
        | .ok v r2 =>
          let slots' := slots.set jp.1 v
          let r3 := skipWs r2
          if isEmptyProperty then
            if r3.isEmpty then .ok slots' r3 else seqLoop fuel cd slots' r3
          else
            match r3 with
            | [] => .err ⟨.propEndEOF cd.name nm, []⟩
            | .endEl en :: r4 =>
              if en != nm then .err ⟨.propEndMismatch cd.name nm en, []⟩
              else
                let r5 := skipWs r4
                if r5.isEmpty then .ok slots' r5 else seqLoop fuel cd slots' r5
            | _ => .err ⟨.propEndUnexpectedNode cd.name nm, []⟩
    | _ => .ok slots r

def decodeProp (fuel : Nat) (cls : String) (p : PropDesc)
    (isEmptyProperty : Bool) (r : List Tok) : POut :=
  match fuel with
  | 0 => .outOfFuel
  | fuel + 1 =>
    match p.ty with
    | .prim k =>
      if isEmptyProperty then
        match k with
        | .str => .ok (some (.vstr "")) r
        | _ => .err ⟨.needsContent cls p.name, [.name p.name]⟩
      else if r.isEmpty then .err ⟨.contentEOF cls p.name, []⟩
      else
        match readPrim k r with
        | .ok v r1 => .ok (some v) r1
        | .fmtErr => .err ⟨.valueFormat cls p.name, [.name p.name]⟩
        | .fatal => .thrown
    | .enum tbl =>
      if isEmptyProperty then .err ⟨.needsContent cls p.name, [.name p.name]⟩
      else if r.isEmpty then .err ⟨.contentEOF cls p.name, []⟩
      else
        match readPrim .str r with
        | .ok (.vstr s) r1 =>
          if tbl.contains s then .ok (some (.venum s)) r1
          else .err ⟨.unknownEnumLiteral cls p.name s, [.name p.name]⟩
        | .ok _ _ => .thrown
        | .fmtErr => .err ⟨.stringFormat cls p.name, [.name p.name]⟩
        | .fatal => .thrown
    | .record c =>
      match clsFromSequence fuel c isEmptyProperty r with
      | .ret (some e) _ _ => .err ⟨e.cause, .name p.name :: e.segments⟩
      | .ret none v r1 => .ok v r1
      | .thrown => .thrown
      | .outOfFuel => .outOfFuel
    | .poly impls =>
      if isEmptyProperty then .err ⟨.polyEmpty cls p.name, []⟩
      else if r.isEmpty then .err ⟨.polyEOF cls p.name, []⟩
      else
        match interfaceFromElement fuel impls r with
        | .ret (some e) _ _ => .err ⟨e.cause, .name p.name :: e.segments⟩
        | .ret none v r1 => .ok v r1
        | .thrown => .thrown
        | .outOfFuel => .outOfFuel
    | .listRec c =>
      if isEmptyProperty then .ok (some (.vlist [])) r
      else
        match listLoop fuel (Sum.inl c) 0 [] (skipWs r) with
        | .ok items r1 => .ok (some (.vlist items)) r1
        | .err e => .err e
        | .thrown => .thrown
        | .outOfFuel => .outOfFuel
    | .listPoly impls =>
      if isEmptyProperty then .ok (some (.vlist [])) r
      else
        match listLoop fuel (Sum.inr impls) 0 [] (skipWs r) with
        | .ok items r1 => .ok (some (.vlist items)) r1
        | .err e => .err e
        | .thrown => .thrown
        | .outOfFuel => .outOfFuel

def listLoop (fuel : Nat) (dis : ClassDesc ⊕ List ClassDesc) (idx : Nat)
    (acc : List Value) (r : List Tok) : LOut :=
  match fuel with
  | 0 => .outOfFuel
  | fuel + 1 =>
    match r with
    | .start _ _ :: _ =>
      let itemRes :=
        match dis with
        | .inl c => clsFromElement fuel c r
        | .inr impls => interfaceFromElement fuel impls r
      match itemRes with
      | .ret (some e) _ _ => .err ⟨e.cause, .index idx :: e.segments⟩
      | .ret none (some v) r1 => listLoop fuel dis (idx + 1) (acc ++ [v]) (skipWs r1)
      | .ret none none _ => .thrown
      | .thrown => .thrown
      | .outOfFuel => .outOfFuel
    | _ => .ok acc r

end

/-! ## The serialization visitor

The emitted VisitorWithWriter writes one element per class via
WriteStartElement / property content / WriteEndElement on the wrapped
XmlWriter.  System.Xml collapses a start/end pair with no content in
between into a single self-closing element; writeElem models that.

WriteValue of a bool/long/double/string always produces a text node
(XmlWriter writes even the empty string as content, which keeps the
element in long form), while WriteBase64 of an empty buffer writes
nothing at all, so an empty byte sequence leaves its property element
self-closing.

Stringification.ToString of an unmapped enum literal is null and the
emitted code throws an ArgumentException: the encoder returns none. -/

/-- Write one element: start tag, content tokens, end tag, collapsing to
a self-closing element when no content was written. -/
def writeElem (name : String) (content : List Tok) : List Tok :=
  if content.isEmpty then [.start name true]
  else .start name false :: (content ++ [.endEl name])

mutual

/-- Content of one property's element, per the property's type: the
tokens between WriteStartElement(propName) and WriteEndElement(). -/
def encodeVal (t : TypeDesc) (v : Value) : Option (List Tok) :=
  match t, v with
  | .prim .bool, .vbool b => some [.content (.cbool b)]
  | .prim .int, .vint i => some [.content (.cint i)]
  | .prim .float, .vfloat f => some [.content (.cfloat f)]
  | .prim .str, .vstr s => some [.content (.cstr s)]
  | .prim .bytes, .vbytes bs =>
    some (if bs.isEmpty then [] else [.content (.cbytes bs)])
  | .enum tbl, .venum s =>
    if tbl.contains s then some [.content (.cstr s)] else none
  | .record c, .vobj _ slots => encodeProps c.props slots
  | .poly impls, .vobj nm slots =>
    match findImpl impls nm with
    | some c => (encodeProps c.props slots).map (writeElem nm)
    | none => none
  | .listRec c, .vlist items => encodeItems [c] items
  | .listPoly impls, .vlist items => encodeItems impls items
  | _, _ => none
termination_by sizeOf v

/-- {Cls}ToSequence: per property in declaration order, skip an absent
optional, else write the property's element. -/
def encodeProps (ps : List PropDesc) (ss : List (Option Value)) :
    Option (List Tok) :=
  match ps, ss with
  | [], [] => some []
  | p :: ps1, none :: ss1 =>
    if p.optional then encodeProps ps1 ss1 else none
  | p :: ps1, some v :: ss1 =>
    match encodeVal p.ty v, encodeProps ps1 ss1 with
    | some c, some rest => some (writeElem p.name c ++ rest)
    | _, _ => none
  | _, _ => none
termination_by sizeOf ss

/-- The foreach over a list property's items: Visit each item, which
dispatches on its runtime class and writes that class's element. -/
def encodeItems (impls : List ClassDesc) (items : List Value) :
    Option (List Tok) :=
  match items with
  | [] => some []
  | .vobj nm slots :: vs =>
    match findImpl impls nm with
    | some c =>
      match encodeProps c.props slots, encodeItems impls vs with
      | some c1, some rest => some (writeElem nm c1 ++ rest)
      | _, _ => none
    | none => none
  | _ :: _ => none
termination_by sizeOf items

end

/-- Visit for one concrete class: the class's wire element wrapping its
property sequence. -/
def encodeClsElem (cd : ClassDesc) (ss : List (Option Value)) :
    Option (List Tok) :=
  (encodeProps cd.props ss).map (writeElem cd.name)

/-! ## Well-typedness of an instance against a type

validVal holds when the value conforms to the descriptor as a well-typed
C# instance would (slots match the property list, enum literals are in
the wire table, an object's class resolves through the dispatch tables,
wire property names are duplicate-free), and additionally requires every
byte-sequence value to be non-empty — the round trip below needs that
extra condition, and the counterexample shows why. -/

mutual

def validVal (t : TypeDesc) (v : Value) : Bool :=
  match t, v with
  | .prim .bool, .vbool _ => true
  | .prim .int, .vint _ => true
  | .prim .float, .vfloat _ => true
  | .prim .str, .vstr _ => true
  | .prim .bytes, .vbytes bs => !bs.isEmpty
  | .enum tbl, .venum s => tbl.contains s
  | .record c, .vobj nm slots =>
    nm == c.name && nodupNames c.props && validProps c.props slots
  | .poly impls, .vobj nm slots =>
    (match findImpl impls nm with
     | some c => nodupNames c.props && validProps c.props slots
     | none => false)
  | .listRec c, .vlist items => validItems [c] items
  | .listPoly impls, .vlist items => validItems impls items
  | _, _ => false
termination_by sizeOf v

def validProps (ps : List PropDesc) (ss : List (Option Value)) : Bool :=
  match ps, ss with
  | [], [] => true
  | p :: ps1, none :: ss1 => p.optional && validProps ps1 ss1
  | p :: ps1, some v :: ss1 => validVal p.ty v && validProps ps1 ss1
  | _, _ => false
termination_by sizeOf ss

def validItems (impls : List ClassDesc) (items : List Value) : Bool :=
  match items with
  | [] => true
  | .vobj nm slots :: vs =>
    (match findImpl impls nm with
     | some c => nodupNames c.props && validProps c.props slots
     | none => false) && validItems impls vs
  | _ :: _ => false
termination_by sizeOf items

end

/-! ## Fuel bounds

A recursive over-approximation of the fuel the decoder spends on the
encoding of a value; used as the induction measure of the round-trip
proof as well. -/

mutual

def needV (v : Value) : Nat :=
  match v with
  | .vobj _ slots => needSlots slots + 6
  | .vlist items => needItems items + 2
  | _ => 2
termination_by sizeOf v

def needSlots (ss : List (Option Value)) : Nat :=
  match ss with
  | [] => 2
  | none :: ss1 => needSlots ss1 + 1
  | some v :: ss1 => needV v + needSlots ss1 + 2
termination_by sizeOf ss

def needItems (items : List Value) : Nat :=
  match items with
  | [] => 2
  | v :: vs => needV v + needItems vs + 3
termination_by sizeOf items

end

/-! ## Reporting renderers

The Java Reporting class renders a segment list as a JSON path and as a
relative XPath.  Its building block is String.replace with single-char
literal patterns, applied in a fixed order; replC is exactly one such
pass, and the chains below keep the source's order, in particular the
JSON escape chain replaces the backslash last. -/

/-- One String.replace pass with a single-character pattern. -/
def replC (c : Char) (rep : List Char) : List Char → List Char
  | [] => []
  | a :: s => (if a = c then rep else [a]) ++ replC c rep s

/-- variableNameRe: whether the name matches [a-zA-Z_][a-zA-Z_0-9]*. -/
def isIdentName (s : List Char) : Bool :=
  match s with
  | [] => false
  | c :: cs =>
    (c.isAlpha || c = '_')
      && cs.all (fun a => a.isAlpha || a.isDigit || a = '_')

/-- The escaped name of generateJsonPath's bracket form: the source's
replace chain in order tab, backspace, newline, carriage return,
form feed, double quote, backslash. -/
def escJson (s : List Char) : List Char :=
  replC '\\' ['\\', '\\']
    (replC (Char.ofNat 34) ['\\', Char.ofNat 34]
      (replC (Char.ofNat 12) ['\\', 'f']
        (replC '\r' ['\\', 'r']
          (replC '\n' ['\\', 'n']
            (replC (Char.ofNat 8) ['\\', 'b']
              (replC '\t' ['\\', 't'] s))))))

/-- One part of generateJsonPath: a name as .name (no dot at position 0)
when it matches the identifier regex, else bracketed-and-escaped; an
index as [i]. -/
def jsonPart (i : Nat) : Seg → List Char
  | .name n =>
    if isIdentName n.data then
      (if i == 0 then n.data else '.' :: n.data)
    else
      '[' :: Char.ofNat 34 :: (escJson n.data ++ [Char.ofNat 34, ']'])
  | .index k => '[' :: ((Nat.repr k).data ++ [']'])

/-- The indexed loop over the segments; the parts are joined with "". -/
def jsonParts (i : Nat) : List Seg → List Char
  | [] => []
  | s :: ss => jsonPart i s ++ jsonParts (i + 1) ss

/-- Reporting.generateJsonPath. -/
def generateJsonPath (segments : List Seg) : String :=
  String.mk (jsonParts 0 segments)

/-- Reporting.escapeForXPath: the replace chain in order ampersand,
slash, less-than, greater-than, double quote, apostrophe. -/
def escXPath (s : List Char) : List Char :=
  replC (Char.ofNat 39) ['&', 'a', 'p', 'o', 's', ';']
    (replC (Char.ofNat 34) ['&', 'q', 'u', 'o', 't', ';']
      (replC '>' ['&', 'g', 't', ';']
        (replC '<' ['&', 'l', 't', ';']
          (replC '/' ['&', '#', '4', '7', ';']
            (replC '&' ['&', 'a', 'm', 'p', ';'] s)))))

/-- One part of generateRelativeXPath: an escaped name, or an index
as *[i]. -/
def xpathPart : Seg → List Char
  | .name n => escXPath n.data
  | .index k => '*' :: '[' :: ((Nat.repr k).data ++ [']'])

/-- Reporting.generateRelativeXPath: parts joined with "/", no leading
slash. -/
def generateRelativeXPath (segments : List Seg) : String :=
  String.intercalate "/" (segments.map (fun s => String.mk (xpathPart s)))

/-! ## The public facade

Deserialize.{Cls}From calls the implementation and, when the error
out-parameter is set, throws Xmlization.Exception carrying the relative
XPath of the error's segments as Path and the error's cause as Cause;
when the implementation returns null with no error pending it throws
InvalidOperationException (the invalidOp outcome). -/

inductive FOut : Type where
  | ok (v : Value)
  | exn (path : String) (cause : Cause)
  | invalidOp
  | thrown
  | outOfFuel

/-- The facade method {Cls}From at ns = null. -/
def clsFrom (fuel : Nat) (cd : ClassDesc) (r : List Tok) : FOut :=
  match clsFromElement fuel cd r with
  | .ret (some e) _ _ => .exn (generateRelativeXPath e.segments) e.cause
  | .ret none (some v) _ => .ok v
  | .ret none none _ => .invalidOp
  | .thrown => .thrown
  | .outOfFuel => .outOfFuel

/-! ## Round-trip bookkeeping definitions -/

/-- A stream on which the property-sequence while loop stops: at
end-of-document or at an end element. -/
def stopTok : List Tok → Bool
  | [] => true
  | .endEl _ :: _ => true
  | _ => false

/-- The slot assignment after the loop stored the listed values:
positions with a decoded value are overwritten, absent-optional
positions are left as they were. -/
def updSome (slots : List (Option Value)) (k : Nat) :
    List (Option Value) → List (Option Value)
  | [] => slots
  | none :: ss => updSome slots (k + 1) ss
  | some v :: ss => updSome (slots.set k (some v)) (k + 1) ss

/-- The candidate classes of a list item dispatch: the single concrete
class, or the interface's implementers. -/
def disClasses : ClassDesc ⊕ List ClassDesc → List ClassDesc
  | .inl c => [c]
  | .inr impls => impls

/-! ## Round-trip statements

One statement per decoder function, indexed by the measure bound m used
for the induction; the fuel hypotheses use the same need functions. -/

/-- The property-sequence while loop consumes exactly the encoding of
the remaining properties (a suffix of the class's property list starting
at position k) and stores each decoded value in its slot. -/
def SeqLoopRT (m : Nat) : Prop :=
  ∀ (ss : List (Option Value)) (cn : String) (PS ps : List PropDesc)
    (k : Nat) (slots0 : List (Option Value)) (stoks stop : List Tok)
    (fuel : Nat),
    needSlots ss ≤ m → PS.drop k = ps → nodupNames PS = true →
    validProps ps ss = true → encodeProps ps ss = some stoks →
    slots0.length = PS.length → noWs stop = true → stopTok stop = true →
    needSlots ss ≤ fuel →
    seqLoop fuel ⟨cn, PS⟩ slots0 (stoks ++ stop) = .ok (updSome slots0 k ss) stop

/-- FromSequence reconstructs the instance from the encoding of its
property sequence: from an empty sequence when the encoding collapsed,
else from the written tokens followed by a stopping stream. -/
def SeqRT (m : Nat) : Prop :=
  ∀ (c : ClassDesc) (ss : List (Option Value)) (stoks : List Tok) (fuel : Nat),
    needSlots ss ≤ m → nodupNames c.props = true →
    validProps c.props ss = true → encodeProps c.props ss = some stoks →
    needSlots ss + 1 ≤ fuel →
    ((stoks = [] → ∀ r, clsFromSequence fuel c true r
        = .ret none (some (.vobj c.name ss)) r)
      ∧ (∀ stop, noWs stop = true → stopTok stop = true → stoks ≠ [] →
        clsFromSequence fuel c false (stoks ++ stop)
          = .ret none (some (.vobj c.name ss)) stop))

/-- FromElement reconstructs the instance from its encoded class
element, leaving the trailing stream untouched. -/
def ClsRT (m : Nat) : Prop :=
  ∀ (cd : ClassDesc) (ss : List (Option Value)) (doc rest : List Tok)
    (fuel : Nat),
    needSlots ss ≤ m → nodupNames cd.props = true →
    validProps cd.props ss = true → encodeClsElem cd ss = some doc →
    noWs rest = true → needSlots ss + 2 ≤ fuel →
    clsFromElement fuel cd (doc ++ rest)
      = .ret none (some (.vobj cd.name ss)) rest

/-- The interface dispatcher recognizes an implementer's encoded class
element and reconstructs the instance. -/
def IfaceRT (m : Nat) : Prop :=
  ∀ (impls : List ClassDesc) (nm : String) (c : ClassDesc)
    (ss : List (Option Value)) (doc rest : List Tok) (fuel : Nat),
    needSlots ss ≤ m → findImpl impls nm = some c →
    nodupNames c.props = true → validProps c.props ss = true →
    encodeClsElem c ss = some doc → noWs rest = true →
    needSlots ss + 3 ≤ fuel →
    interfaceFromElement fuel impls (doc ++ rest)
      = .ret none (some (.vobj c.name ss)) rest

/-- The list-property while loop consumes the encodings of the items in
order, appending them to the accumulator, and stops at the stopping
stream. -/
def ItemsRT (m : Nat) : Prop :=
  ∀ (items : List Value) (dis : ClassDesc ⊕ List ClassDesc) (idx : Nat)
    (acc : List Value) (itoks stop : List Tok) (fuel : Nat),
    needItems items ≤ m → validItems (disClasses dis) items = true →
    encodeItems (disClasses dis) items = some itoks →
    noWs stop = true → stopTok stop = true → needItems items ≤ fuel →
    listLoop fuel dis idx acc (itoks ++ stop) = .ok (acc ++ items) stop

/-- One property's case body decodes the encoded content of its value:
from a self-closing element when the content collapsed to nothing, else
from the written content followed by the property's end element. -/
def PropRT (m : Nat) : Prop :=
  ∀ (t : TypeDesc) (v : Value) (ctoks : List Tok) (cls nm : String)
    (opt : Bool) (fuel : Nat),
    needV v ≤ m → validVal t v = true → encodeVal t v = some ctoks →
    needV v ≤ fuel →
    ((ctoks = [] → ∀ r : List Tok,
        decodeProp fuel cls ⟨nm, opt, t⟩ true r = .ok (some v) r)
      ∧ (∀ (en : String) (rest : List Tok), noWs rest = true → ctoks ≠ [] →
        decodeProp fuel cls ⟨nm, opt, t⟩ false (ctoks ++ .endEl en :: rest)
          = .ok (some v) (.endEl en :: rest)))

/-! ## Claims about the path renderers -/

/-- Claim C7, evaluated at the failing input: the dotted-bracket
renderer does not escape a tab once as a single backslash followed by t.
Because the backslash replacement runs last in the chain, the backslash
introduced for the tab is itself doubled, so Name("tab") renders as
open-bracket quote backslash backslash t quote close-bracket; the claimed
single escape would be one backslash.  The escaping is consequently not
even injective: a tab and the two-character text backslash-t render
identically. -/
theorem c7_jsonPath_tab_double_escaped :
    generateJsonPath [Seg.name "\t"] = "[\"\\\\t\"]"
      ∧ generateJsonPath [Seg.name "\t"] = generateJsonPath [Seg.name "\\t"]
      ∧ "[\"\\\\t\"]" ≠ "[\"\\t\"]" := by
  refine ⟨rfl, rfl, ?_⟩
  decide

/-- Claim C8: the segments Name "items", Index 2, Name "value" render
dotted-bracket as items[2].value (no leading dot, index as [2]) and
slash-form as items/*[2]/value (XML-escaped names, index as *[2],
joined with slashes and no leading slash). -/
theorem c8_path_rendering :
    generateJsonPath [Seg.name "items", Seg.index 2, Seg.name "value"]
        = "items[2].value"
      ∧ generateRelativeXPath [Seg.name "items", Seg.index 2, Seg.name "value"]
        = "items/*[2]/value" :=
  ⟨rfl, rfl⟩

/-! ## Claims about the property-sequence decoder -/

/-- Claim C10: for a concrete class whose constructor takes no
arguments, the sequence decoder is hard-wired to succeed with a fresh
instance, reading nothing from the cursor and ignoring the
isEmptySequence flag, so child elements are never inspected and the
cursor stays on them. -/
theorem c10_zero_argument_class_sequence (fuel : Nat) (n : String) (b : Bool)
    (r : List Tok) :
    clsFromSequence (fuel + 1) ⟨n, []⟩ b r = .ret none (some (.vobj n [])) r :=
  rfl

/-- Claim C3, counterexample: decoding the self-closing byte-sequence
property element v inside class C does not succeed with an empty byte
sequence; it fails with the needs-content error, path Name "v". -/
theorem c3_counterexample :
    clsFromElement 9 ⟨"C", [⟨"v", false, .prim .bytes⟩]⟩
        [.start "C" false, .start "v" true, .endEl "C"]
      = .ret (some ⟨.needsContent "C" "v", [.name "v"]⟩) none
          [.start "v" true, .endEl "C"] :=
  rfl

/-- Claim C3 as amended: a self-closing property element of bytes type
always fails with the needs-content error (the emitted code special-cases
only the string type), with path Name(propertyWireName). -/
theorem c3_empty_bytes_property_fails (fuel : Nat) (cls nm : String)
    (opt : Bool) (r : List Tok) :
    decodeProp (fuel + 1) cls ⟨nm, opt, .prim .bytes⟩ true r
      = .err ⟨.needsContent cls nm, [.name nm]⟩ :=
  rfl

/-- Claim C2, counterexample: decoding Cls with the unknown child bogus
fails with the unknown-property cause carrying the reported name, but
the error's path is empty, not the claimed single segment Name "bogus"
(the switch default never calls PrependSegment). -/
theorem c2_counterexample :
    clsFromElement 9 ⟨"Cls", [⟨"p", true, .prim .str⟩]⟩
        [.start "Cls" false, .start "bogus" true, .endEl "Cls"]
      = .ret (some ⟨.unknownProperty "Cls" "bogus", []⟩) none
          [.start "bogus" true, .endEl "Cls"]
      ∧ ([] : List Seg) ≠ [Seg.name "bogus"] :=
  ⟨rfl, by decide⟩

/-- Claim C2 as amended: whenever the property-sequence loop is at a
child element whose name is not in the class's property table, it fails
with the unknown-property error carrying the reported name, and the
error's path is empty. -/
theorem c2_unknown_property (fuel : Nat) (cd : ClassDesc)
    (slots : List (Option Value)) (nm : String) (b : Bool) (r : List Tok)
    (h : findProp cd.props nm = none) :
    seqLoop (fuel + 1) cd slots (.start nm b :: r)
      = .err ⟨.unknownProperty cd.name nm, []⟩ := by
  simp [seqLoop, h]

/-- Witness for c2_unknown_property at a concrete class and document. -/
theorem c2_unknown_property_witness :
    findProp (ClassDesc.props ⟨"Cls", [⟨"p", true, .prim .str⟩]⟩) "bogus" = none
      ∧ seqLoop 1 ⟨"Cls", [⟨"p", true, .prim .str⟩]⟩ [none] [.start "bogus" true]
          = .err ⟨.unknownProperty "Cls" "bogus", []⟩ :=
  ⟨rfl, c2_unknown_property 0 ⟨"Cls", [⟨"p", true, .prim .str⟩]⟩ [none]
    "bogus" true [] rfl⟩

/-- Claim C6: a self-closing required scalar property decodes to the
empty string when the scalar type is string, and fails with the
needs-content error, path Name(propertyWireName), when the scalar type
is bool, int or float.  Stated on the document with the class element
wrapping the single self-closing property element. -/
theorem c6_self_closing_scalar (fuel : Nat) (c n : String) (opt : Bool) :
    (clsFromElement (fuel + 9) ⟨c, [⟨n, opt, .prim .str⟩]⟩
        [.start c false, .start n true, .endEl c]
      = .ret none (some (.vobj c [some (.vstr "")])) [])
    ∧ (clsFromElement (fuel + 9) ⟨c, [⟨n, opt, .prim .bool⟩]⟩
        [.start c false, .start n true, .endEl c]
      = .ret (some ⟨.needsContent c n, [.name n]⟩) none
          [.start n true, .endEl c])
    ∧ (clsFromElement (fuel + 9) ⟨c, [⟨n, opt, .prim .int⟩]⟩
        [.start c false, .start n true, .endEl c]
      = .ret (some ⟨.needsContent c n, [.name n]⟩) none
          [.start n true, .endEl c])
    ∧ (clsFromElement (fuel + 9) ⟨c, [⟨n, opt, .prim .float⟩]⟩
        [.start c false, .start n true, .endEl c]
      = .ret (some ⟨.needsContent c n, [.name n]⟩) none
          [.start n true, .endEl c]) := by
  refine ⟨?_, ?_, ?_, ?_⟩ <;>
    simp [clsFromElement, clsFromSequence, seqLoop, decodeProp, skipWs,
      findProp, firstMissing, ClassDesc.name, ClassDesc.props, PropDesc.name,
      PropDesc.ty, PropDesc.optional]

/-! ## Claims about list-property errors -/

/-- Every error leaving the list-property while loop is prefixed by the
index segment of the item that failed, counted from the loop's starting
index. -/
theorem listLoop_err_index (fuel : Nat) :
    ∀ (dis : ClassDesc ⊕ List ClassDesc) (idx : Nat) (acc : List Value)
      (r : List Tok) (e : Err),
      listLoop fuel dis idx acc r = .err e →
      ∃ k tl, e.segments = Seg.index (idx + k) :: tl := by
  induction fuel with
  | zero =>
    intro dis idx acc r e h
    simp [listLoop] at h
  | succ f ih =>
    intro dis idx acc r e h
    simp only [listLoop] at h
    rcases r with _ | ⟨t, rest⟩
    · simp at h
    rcases t with ⟨nm, b⟩ | en | ct | _
    case start =>
      rcases dis with c | impls
      · dsimp only at h
        rcases hres : clsFromElement f c (Tok.start nm b :: rest)
          with ⟨oe, ov, r1⟩ | _ | _
        · rw [hres] at h
          rcases oe with _ | e0
          · rcases ov with _ | v
            · simp at h
            · have h2 := ih (Sum.inl c) (idx + 1) (acc ++ [v]) (skipWs r1) e h
              obtain ⟨k, tl, hseg⟩ := h2
              refine ⟨k + 1, tl, ?_⟩
              have : idx + (k + 1) = idx + 1 + k := by omega
              rw [this]
              exact hseg
          · simp at h
            refine ⟨0, e0.segments, ?_⟩
            rw [← h]
            simp
        · rw [hres] at h; simp at h
        · rw [hres] at h; simp at h
      · dsimp only at h
        rcases hres : interfaceFromElement f impls (Tok.start nm b :: rest)
          with ⟨oe, ov, r1⟩ | _ | _
        · rw [hres] at h
          rcases oe with _ | e0
          · rcases ov with _ | v
            · simp at h
            · have h2 := ih (Sum.inr impls) (idx + 1) (acc ++ [v]) (skipWs r1) e h
              obtain ⟨k, tl, hseg⟩ := h2
              refine ⟨k + 1, tl, ?_⟩
              have : idx + (k + 1) = idx + 1 + k := by omega
              rw [this]
              exact hseg
          · simp at h
            refine ⟨0, e0.segments, ?_⟩
            rw [← h]
            simp
        · rw [hres] at h; simp at h
        · rw [hres] at h; simp at h
    case endEl => simp at h
    case content => simp at h
    case ws => simp at h

/-- Claim C4 as amended: when decoding the item at position i of a
list-typed property fails, the error leaves the loop prefixed with
Index(i) only; the case body returns it to the sequence decoder without
prepending the property's Name segment, for both the concrete-class and
the interface item dispatch. -/
theorem c4_list_item_error_path :
    (∀ (fuel : Nat) (dis : ClassDesc ⊕ List ClassDesc) (idx : Nat)
        (acc : List Value) (r : List Tok) (e : Err),
        listLoop fuel dis idx acc r = .err e →
        ∃ k tl, e.segments = Seg.index (idx + k) :: tl)
    ∧ (∀ (fuel : Nat) (cls nm : String) (opt : Bool) (c : ClassDesc)
        (r : List Tok) (e : Err),
        listLoop fuel (Sum.inl c) 0 [] (skipWs r) = .err e →
        decodeProp (fuel + 1) cls ⟨nm, opt, .listRec c⟩ false r = .err e)
    ∧ (∀ (fuel : Nat) (cls nm : String) (opt : Bool)
        (impls : List ClassDesc) (r : List Tok) (e : Err),
        listLoop fuel (Sum.inr impls) 0 [] (skipWs r) = .err e →
        decodeProp (fuel + 1) cls ⟨nm, opt, .listPoly impls⟩ false r = .err e) := by
  refine ⟨fun fuel => listLoop_err_index fuel, ?_, ?_⟩
  · intro fuel cls nm opt c r e h
    simp [decodeProp, PropDesc.ty, PropDesc.name, h]
  · intro fuel cls nm opt impls r e h
    simp [decodeProp, PropDesc.ty, PropDesc.name, h]

/-- Witness for c4_list_item_error_path at a concrete failing item. -/
theorem c4_list_item_error_path_witness :
    ∃ k tl, (Err.segments ⟨.unexpectedElementName "D" "E", [.index 0]⟩)
        = Seg.index (0 + k) :: tl :=
  c4_list_item_error_path.1 2 (Sum.inl ⟨"D", []⟩) 0 [] [.start "E" true]
    ⟨.unexpectedElementName "D" "E", [.index 0]⟩ rfl

/-- Claim C4, counterexample: the failure of list item 0 of property
items of class L surfaces with path Index 0 alone, not with the claimed
leading Name "items" segment. -/
theorem c4_counterexample :
    clsFromElement 9 ⟨"L", [⟨"items", false, .listRec ⟨"D", []⟩⟩]⟩
        [.start "L" false, .start "items" false, .start "E" true,
          .endEl "items", .endEl "L"]
      = .ret (some ⟨.unexpectedElementName "D" "E", [.index 0]⟩) none
          [.start "items" false, .start "E" true, .endEl "items", .endEl "L"]
      ∧ ([Seg.index 0] : List Seg) ≠ [Seg.name "items", Seg.index 0] :=
  ⟨rfl, by decide⟩

/-! ## Claims about the required-property check -/

/-- firstMissing names the first property in declaration order that is
non-optional with an unset slot: if position j is such a property and no
earlier position is, the scan returns its name. -/
theorem firstMissing_first (qs : List PropDesc) :
    ∀ (ss : List (Option Value)) (j : Nat) (q : PropDesc),
      qs[j]? = some q → ss[j]? = some none → q.optional = false →
      (∀ i, i < j → ∀ qi, qs[i]? = some qi → qi.optional = false →
          ss[i]? ≠ some none) →
      firstMissing qs ss = some q.name := by
  induction qs with
  | nil => intro ss j q hq _ _ _; simp at hq
  | cons p ps ih =>
    intro ss j q hq hs hopt hbef
    rcases ss with _ | ⟨s, ss1⟩
    · simp at hs
    rcases j with _ | j1
    · simp only [List.getElem?_cons_zero, Option.some.injEq] at hq hs
      subst hq
      subst hs
      rw [firstMissing]
      simp [hopt]
    · simp only [List.getElem?_cons_succ] at hq hs
      have hbef1 : ∀ i, i < j1 → ∀ qi, ps[i]? = some qi →
          qi.optional = false → ss1[i]? ≠ some none := by
        intro i hi qi hqi hoi
        have := hbef (i + 1) (by omega) qi (by simpa using hqi) hoi
        simpa using this
      by_cases hp : p.optional
      · rw [firstMissing]
        simp [hp]
        exact ih ss1 j1 q hq hs hopt hbef1
      · rcases s with _ | v
        · exact absurd (by simp)
            (hbef 0 (by omega) p (by simp) (by simpa using hp))
        · rw [firstMissing]
          simp
          exact ih ss1 j1 q hq hs hopt hbef1

/-- Claim C5: when the property-sequence loop of a class with at least
one property terminates normally (reaching end-of-document stops the
loop as a normal stop, second conjunct) with some non-optional slot
still unset, the sequence decoder fails with the missing-required-
property error naming the first such property in declaration order
(firstMissing, characterized by the third conjunct), and the error's
path is empty — no segment from the class's own frame. -/
theorem c5_missing_required (fuel : Nat) (cd : ClassDesc) (r r2 : List Tok)
    (slots : List (Option Value)) (p : String)
    (hne : cd.props ≠ [])
    (hr : (skipWs r).isEmpty = false)
    (hloop : seqLoop fuel cd (List.replicate cd.props.length none) (skipWs r)
        = .ok slots r2)
    (hmiss : firstMissing cd.props slots = some p) :
    clsFromSequence (fuel + 1) cd false r
        = .ret (some ⟨.missingRequired cd.name p, []⟩) none r2
      ∧ (∀ s2 : List (Option Value), seqLoop (fuel + 1) cd s2 [] = .ok s2 [])
      ∧ (∀ (qs : List PropDesc) (ss : List (Option Value)) (j : Nat)
            (q : PropDesc),
          qs[j]? = some q → ss[j]? = some none → q.optional = false →
          (∀ i, i < j → ∀ qi, qs[i]? = some qi → qi.optional = false →
              ss[i]? ≠ some none) →
          firstMissing qs ss = some q.name) := by
  refine ⟨?_, fun s2 => rfl, fun qs => firstMissing_first qs⟩
  obtain ⟨cn, cps⟩ := cd
  rcases cps with _ | ⟨p0, ps0⟩
  · exact absurd rfl hne
  · rw [clsFromSequence]
    simp only [ClassDesc.props, ClassDesc.name, List.length_cons] at hloop hmiss ⊢
    simp [hr, hloop, hmiss]

/-- Witness for c5_missing_required: class K has optional property a and
required property b; the document provides only a and then ends, so the
loop stops at end-of-document and decoding reports missing b with an
empty path. -/
theorem c5_missing_required_witness :
    clsFromSequence 3 ⟨"K", [⟨"a", true, .prim .str⟩, ⟨"b", false, .prim .int⟩]⟩
        false [.start "a" true]
      = .ret (some ⟨.missingRequired "K" "b", []⟩) none [] :=
  (c5_missing_required 2
    ⟨"K", [⟨"a", true, .prim .str⟩, ⟨"b", false, .prim .int⟩]⟩
    [.start "a" true] [] [some (.vstr ""), none] "b"
    (List.cons_ne_nil _ _) rfl rfl rfl).1

/-! ## Claims about the facade -/

/-- FromSequence never returns null while the error out-parameter is
unset. -/
theorem clsFromSequence_none_isSome (fuel : Nat) (cd : ClassDesc) (b : Bool)
    (r : List Tok) (v : Option Value) (r1 : List Tok)
    (h : clsFromSequence fuel cd b r = .ret none v r1) : v.isSome = true := by
  rcases fuel with _ | f
  · simp [clsFromSequence] at h
  · rw [clsFromSequence] at h
    obtain ⟨cn, cps⟩ := cd
    rcases cps with _ | ⟨p0, ps0⟩
    · simp only [ClassDesc.props, ClassDesc.name] at h
      simp at h
      obtain ⟨hv, -⟩ := h
      rw [← hv]
      rfl
    · simp only [ClassDesc.props, ClassDesc.name] at h
      split at h
      · split at h
        · simp at h
        · simp at h
          obtain ⟨hv, -⟩ := h
          rw [← hv]
          rfl
      · simp at h
      · simp at h
      · simp at h

/-- FromElement never returns null while the error out-parameter is
unset. -/
theorem clsFromElement_none_isSome (fuel : Nat) (cd : ClassDesc)
    (r : List Tok) (v : Option Value) (r1 : List Tok)
    (h : clsFromElement fuel cd r = .ret none v r1) : v.isSome = true := by
  rcases fuel with _ | f
  · simp [clsFromElement] at h
  · rw [clsFromElement] at h
    rcases hsw : skipWs r with _ | ⟨t, rest⟩
    · rw [hsw] at h; simp at h
    rcases t with ⟨nm, bb⟩ | en | ct | _
    case start =>
      rw [hsw] at h
      by_cases hnm : (nm != cd.name) = true
      · simp only [hnm, if_true] at h
        simp at h
      · simp only [hnm] at h
        simp only [Bool.false_eq_true, if_false] at h
        rcases hseq : clsFromSequence f ⟨cd.name, cd.props⟩ bb rest
          with ⟨oe, ov, r3⟩ | _ | _
        · have hseq2 : clsFromSequence f cd bb rest = .ret oe ov r3 := by
            obtain ⟨cn, cps⟩ := cd
            exact hseq
          rw [hseq2] at h
          rcases oe with _ | e0
          · have hv := clsFromSequence_none_isSome f cd bb rest ov r3 hseq2
            dsimp only at h
            rcases bb with _ | _
            · split at h
              · simp_all
              · split at h
                · simp at h
                · split at h
                  · simp at h
                  · simp_all
                · simp at h
            · simp at h
              obtain ⟨hv2, -⟩ := h
              rw [← hv2]; exact hv
          · dsimp only at h
            simp at h
        · have hseq2 : clsFromSequence f cd bb rest = .thrown := by
            obtain ⟨cn, cps⟩ := cd
            exact hseq
          rw [hseq2] at h; simp at h
        · have hseq2 : clsFromSequence f cd bb rest = .outOfFuel := by
            obtain ⟨cn, cps⟩ := cd
            exact hseq
          rw [hseq2] at h; simp at h
    case endEl => rw [hsw] at h; simp at h
    case content => rw [hsw] at h; simp at h
    case ws => rw [hsw] at h; simp at h

/-- Claim C9: when the implementation reports an error, the facade
throws the exception whose Path is the relative-XPath rendering of the
error's segments and whose Cause is the error's cause; when it reports
no error it returned a non-null instance and the facade returns it —
result-present and error-present are mutually exclusive and the facade
never returns null. -/
theorem c9_facade_exclusive (fuel : Nat) (cd : ClassDesc) (r : List Tok) :
    (∀ (e : Err) (v : Option Value) (r1 : List Tok),
        clsFromElement fuel cd r = .ret (some e) v r1 →
        clsFrom fuel cd r = .exn (generateRelativeXPath e.segments) e.cause)
      ∧ (∀ (v : Option Value) (r1 : List Tok),
        clsFromElement fuel cd r = .ret none v r1 →
        ∃ x, v = some x ∧ clsFrom fuel cd r = .ok x) := by
  constructor
  · intro e v r1 h
    simp [clsFrom, h]
  · intro v r1 h
    have hs := clsFromElement_none_isSome fuel cd r v r1 h
    rcases v with _ | x
    · simp at hs
    · exact ⟨x, rfl, by simp [clsFrom, h]⟩

/-- Witness for c9_facade_exclusive on a concrete error-free decode. -/
theorem c9_facade_exclusive_witness :
    clsFrom 2 ⟨"C", []⟩ [.start "C" true] = .ok (.vobj "C" []) := by
  obtain ⟨x, hx, h⟩ := (c9_facade_exclusive 2 ⟨"C", []⟩ [.start "C" true]).2
    (some (.vobj "C" [])) [] rfl
  injection hx with hx
  rw [hx]
  exact h

/-! ## Helper lemmas for the round trip -/

theorem noWs_append (a b : List Tok) : noWs (a ++ b) = (noWs a && noWs b) := by
  simp [noWs]

theorem skipWs_noWs (r : List Tok) (h : noWs r = true) : skipWs r = r := by
  cases r with
  | nil => rfl
  | cons t rest =>
    cases t with
    | ws => simp [noWs, isWsTok] at h
    | start nm b => rfl
    | endEl n => rfl
    | content c => rfl

theorem writeElem_ne_nil (nm : String) (c : List Tok) : writeElem nm c ≠ [] := by
  unfold writeElem
  split <;> simp

theorem noWs_writeElem (nm : String) (c : List Tok) (h : noWs c = true) :
    noWs (writeElem nm c) = true := by
  unfold writeElem
  split
  · simp [noWs, isWsTok]
  · simp [noWs, isWsTok, noWs_append] at h ⊢
    exact h

theorem findImpl_name (impls : List ClassDesc) (nm : String) (c : ClassDesc)
    (h : findImpl impls nm = some c) : c.name = nm := by
  induction impls with
  | nil => simp [findImpl] at h
  | cons d ds ih =>
    rw [findImpl] at h
    by_cases hd : (d.name == nm) = true
    · rw [if_pos hd] at h
      injection h with h
      subst h
      exact eq_of_beq hd
    · rw [if_neg hd] at h
      exact ih h

theorem findProp_nodup (PS : List PropDesc) :
    ∀ (k : Nat) (p : PropDesc) (ps : List PropDesc),
      nodupNames PS = true → PS.drop k = p :: ps →
      findProp PS p.name = some (k, p) := by
  induction PS with
  | nil =>
    intro k p ps _ hdrop
    rw [List.drop_nil] at hdrop
    cases hdrop
  | cons q qs ih =>
    intro k p ps hnd hdrop
    rw [nodupNames, Bool.and_eq_true] at hnd
    obtain ⟨hall, hnd2⟩ := hnd
    rcases k with _ | k1
    · rw [List.drop_zero] at hdrop
      injection hdrop with h1 h2
      subst h1
      rw [findProp]
      simp
    · rw [List.drop_succ_cons] at hdrop
      have hmem : p ∈ qs :=
        List.drop_subset _ _ (hdrop ▸ List.mem_cons_self _ _)
      have hne : (q.name == p.name) = false := by
        have := List.all_eq_true.mp hall p hmem
        simp only [bne_iff_ne, ne_eq] at this
        simp only [beq_eq_false_iff_ne, ne_eq]
        exact fun hh => this hh.symm
      rw [findProp, hne]
      simp only [Bool.false_eq_true, if_false]
      rw [ih k1 p ps hnd2 hdrop]
      rfl

theorem encodeProps_cons_some (p : PropDesc) (ps : List PropDesc) (v : Value)
    (ss : List (Option Value)) (stoks : List Tok)
    (h : encodeProps (p :: ps) (some v :: ss) = some stoks) :
    ∃ c0 rest0, encodeVal p.ty v = some c0 ∧ encodeProps ps ss = some rest0 ∧
      stoks = writeElem p.name c0 ++ rest0 := by
  rw [encodeProps] at h
  rcases h1 : encodeVal p.ty v with _ | c0 <;> rw [h1] at h
  · simp at h
  · rcases h2 : encodeProps ps ss with _ | rest0 <;> rw [h2] at h
    · simp at h
    · simp only [Option.some.injEq] at h
      exact ⟨c0, rest0, rfl, rfl, h.symm⟩

theorem validProps_nil (ss : List (Option Value))
    (h : validProps [] ss = true) : ss = [] := by
  cases ss with
  | nil => rfl
  | cons s ss1 => simp [validProps] at h

theorem validProps_cons (p : PropDesc) (ps : List PropDesc)
    (ss : List (Option Value)) (h : validProps (p :: ps) ss = true) :
    ∃ s ss1, ss = s :: ss1 ∧ validProps ps ss1 = true ∧
      (s = none → p.optional = true) ∧
      (∀ v, s = some v → validVal p.ty v = true) := by
  cases ss with
  | nil => simp [validProps] at h
  | cons s ss1 =>
    refine ⟨s, ss1, rfl, ?_, ?_, ?_⟩ <;> cases s <;>
      rw [validProps, Bool.and_eq_true] at h
    · exact h.2
    · exact h.2
    · intro _; exact h.1
    · intro h2; cases h2
    · intro v hv; cases hv
    · intro v hv
      injection hv with hv
      subst hv
      exact h.1

theorem validFirstMissing (ps : List PropDesc) :
    ∀ ss, validProps ps ss = true → firstMissing ps ss = none := by
  induction ps with
  | nil =>
    intro ss h
    rw [validProps_nil ss h]
    rfl
  | cons p ps1 ih =>
    intro ss h
    obtain ⟨s, ss1, rfl, hv1, hn, hs⟩ := validProps_cons p ps1 ss h
    cases s with
    | none =>
      rw [firstMissing]
      rw [hn rfl]
      simp only [Bool.not_true, Bool.false_and, Bool.false_eq_true, if_false]
      exact ih ss1 hv1
    | some v =>
      rw [firstMissing]
      simp only [Option.isNone_some, Bool.and_false, Bool.false_eq_true,
        if_false]
      exact ih ss1 hv1

theorem encodeProps_nil_spec (ps : List PropDesc) :
    ∀ (ss : List (Option Value)), validProps ps ss = true →
      encodeProps ps ss = some [] →
      ss = List.replicate ps.length none := by
  induction ps with
  | nil =>
    intro ss hv _
    rw [validProps_nil ss hv]
    rfl
  | cons p ps1 ih =>
    intro ss hv he
    obtain ⟨s, ss1, rfl, hv1, hn, hs⟩ := validProps_cons p ps1 ss hv
    cases s with
    | none =>
      rw [encodeProps, hn rfl] at he
      simp only [if_true] at he
      rw [List.length_cons, List.replicate_succ]
      rw [ih ss1 hv1 he]
    | some v =>
      obtain ⟨c0, rest0, h1, h2, h3⟩ := encodeProps_cons_some p ps1 v ss1 [] he
      exact absurd h3.symm (by
        intro hh
        rcases List.append_eq_nil.mp hh with ⟨hw, -⟩
        exact writeElem_ne_nil p.name c0 hw)

theorem updSome_replicate_none (n : Nat) :
    ∀ (k : Nat) (slots : List (Option Value)),
      updSome slots k (List.replicate n none) = slots := by
  induction n with
  | zero => intro k slots; rfl
  | succ n1 ih =>
    intro k slots
    rw [List.replicate_succ, updSome]
    exact ih (k + 1) slots

theorem drop_set_high {α : Type} (l : List α) (k i : Nat) (a : α)
    (h : k < i) : (l.set k a).drop i = l.drop i := by
  apply List.ext_getElem?
  intro n
  rw [List.getElem?_drop, List.getElem?_drop]
  exact List.getElem?_set_ne (by omega)

theorem take_set_high {α : Type} (l : List α) (k i : Nat) (a : α)
    (h : i ≤ k) : (l.set k a).take i = l.take i := by
  apply List.ext_getElem?
  intro n
  rw [List.getElem?_take, List.getElem?_take]
  by_cases hn : n < i
  · simp only [hn, if_true]
    exact List.getElem?_set_ne (by omega)
  · simp only [hn, if_false]

theorem updSome_fill (ss : List (Option Value)) :
    ∀ (k : Nat) (slots : List (Option Value)),
      slots.length = k + ss.length →
      slots.drop k = List.replicate ss.length none →
      updSome slots k ss = slots.take k ++ ss := by
  induction ss with
  | nil =>
    intro k slots hlen _
    rw [updSome]
    rw [List.take_of_length_le (by simp at hlen; omega)]
    simp
  | cons s ss1 ih =>
    intro k slots hlen hdrop
    rw [List.length_cons] at hlen
    have hk : k < slots.length := by omega
    have hslotk : slots[k]? = some none := by
      have h0 : (slots.drop k)[0]? = some none := by
        rw [hdrop, List.length_cons, List.replicate_succ]
        simp
      rw [List.getElem?_drop] at h0
      simpa using h0
    have hdrop1 : slots.drop (k + 1) = List.replicate ss1.length none := by
      have h1 : List.drop 1 (List.drop k slots) = List.drop (k + 1) slots :=
        List.drop_drop 1 k slots
      rw [hdrop] at h1
      rw [← h1, List.length_cons, List.replicate_succ]
      simp
    cases s with
    | none =>
      rw [updSome]
      rw [ih (k + 1) slots (by omega) hdrop1]
      rw [List.take_succ, hslotk]
      simp
    | some v =>
      rw [updSome]
      have hlen2 : (slots.set k (some v)).length = (k + 1) + ss1.length := by
        rw [List.length_set]
        omega
      have hdrop2 : (slots.set k (some v)).drop (k + 1)
          = List.replicate ss1.length none := by
        rw [drop_set_high slots k (k + 1) _ (by omega)]
        exact hdrop1
      rw [ih (k + 1) (slots.set k (some v)) hlen2 hdrop2]
      rw [List.take_succ]
      rw [take_set_high slots k k _ (le_refl k)]
      have hgot : (slots.set k (some v))[k]? = some (some v) := by
        rw [List.getElem?_set_self']
        simp [hk]
      rw [hgot]
      simp

theorem updSome_replicate (ss : List (Option Value)) :
    updSome (List.replicate ss.length none) 0 ss = ss := by
  have h := updSome_fill ss 0 (List.replicate ss.length none)
    (by simp) (by simp)
  simpa using h

theorem needSlots_pos (ss : List (Option Value)) : 1 ≤ needSlots ss := by
  cases ss with
  | nil => simp [needSlots]
  | cons s ss1 => cases s <;> simp [needSlots]

theorem needV_pos (v : Value) : 1 ≤ needV v := by
  cases v <;> simp [needV]

theorem needItems_pos (items : List Value) : 1 ≤ needItems items := by
  cases items <;> simp [needItems]

/-- The serializer writes no insignificant nodes: every some-encoding is
whitespace-free. -/
theorem enc_noWs : ∀ m : Nat,
    (∀ (t : TypeDesc) (v : Value) (c : List Tok),
      needV v ≤ m → encodeVal t v = some c → noWs c = true)
    ∧ (∀ (ps : List PropDesc) (ss : List (Option Value)) (c : List Tok),
      needSlots ss ≤ m → encodeProps ps ss = some c → noWs c = true)
    ∧ (∀ (impls : List ClassDesc) (items : List Value) (c : List Tok),
      needItems items ≤ m → encodeItems impls items = some c →
      noWs c = true) := by
  intro m
  induction m with
  | zero =>
    refine ⟨?_, ?_, ?_⟩
    · intro t v c hm _
      exact absurd hm (by have := needV_pos v; omega)
    · intro ps ss c hm _
      exact absurd hm (by have := needSlots_pos ss; omega)
    · intro impls items c hm _
      exact absurd hm (by have := needItems_pos items; omega)
  | succ m ih =>
    obtain ⟨ihV, ihP, ihI⟩ := ih
    refine ⟨?_, ?_, ?_⟩
    · intro t v c hm he
      cases t with
      | prim k =>
        cases k <;> cases v <;> simp [encodeVal] at he <;> subst he <;>
          simp [noWs, isWsTok]
      | enum tbl =>
        cases v <;> simp [encodeVal] at he
        case venum s =>
          obtain ⟨-, he⟩ := he
          subst he
          simp [noWs, isWsTok]
      | record c1 =>
        cases v <;> simp [encodeVal] at he
        case vobj nm slots =>
          exact ihP c1.props slots c (by simp [needV] at hm; omega) he
      | poly impls =>
        cases v <;> simp [encodeVal] at he
        case vobj nm slots =>
          rcases hf : findImpl impls nm with _ | cl <;> rw [hf] at he
          · simp at he
          · simp only [Option.map_eq_some'] at he
            obtain ⟨c1, h1, h2⟩ := he
            subst h2
            exact noWs_writeElem nm c1
              (ihP cl.props slots c1 (by simp [needV] at hm; omega) h1)
      | listRec c1 =>
        cases v <;> simp [encodeVal] at he
        case vlist items =>
          exact ihI [c1] items c (by simp [needV] at hm; omega) he
      | listPoly impls =>
        cases v <;> simp [encodeVal] at he
        case vlist items =>
          exact ihI impls items c (by simp [needV] at hm; omega) he
    · intro ps ss c hm he
      cases ps with
      | nil =>
        cases ss with
        | nil =>
          simp [encodeProps] at he
          subst he
          rfl
        | cons s ss1 => simp [encodeProps] at he
      | cons p ps1 =>
        cases ss with
        | nil => simp [encodeProps] at he
        | cons s ss1 =>
          cases s with
          | none =>
            rw [encodeProps] at he
            by_cases hp : p.optional = true
            · rw [if_pos hp] at he
              exact ihP ps1 ss1 c (by simp [needSlots] at hm; omega) he
            · rw [if_neg hp] at he
              simp at he
          | some v =>
            obtain ⟨c0, rest0, h1, h2, h3⟩ :=
              encodeProps_cons_some p ps1 v ss1 c he
            subst h3
            rw [noWs_append, Bool.and_eq_true]
            constructor
            · exact noWs_writeElem p.name c0
                (ihV p.ty v c0 (by simp [needSlots] at hm; omega) h1)
            · exact ihP ps1 ss1 rest0 (by simp [needSlots] at hm; omega) h2
    · intro impls items c hm he
      cases items with
      | nil =>
        simp [encodeItems] at he
        subst he
        rfl
      | cons v vs =>
        cases v <;> simp only [encodeItems] at he <;> try simp at he
        case vobj nm slots =>
          rcases hf : findImpl impls nm with _ | cl <;> rw [hf] at he <;>
            dsimp only at he
          · simp at he
          · rcases h1 : encodeProps cl.props slots with _ | c1 <;>
              rw [h1] at he
            · simp at he
            · rcases h2 : encodeItems impls vs with _ | rest <;> rw [h2] at he
              · simp at he
              · simp only [Option.some.injEq] at he
                rw [← he, noWs_append, Bool.and_eq_true]
                constructor
                · exact noWs_writeElem nm c1 (ihP cl.props slots c1
                    (by simp [needItems, needV] at hm; omega) h1)
                · exact ihI impls vs rest
                    (by simp [needItems] at hm; omega) h2


theorem skipWs_cons_start (nm : String) (b : Bool) (r : List Tok) :
    skipWs (.start nm b :: r) = .start nm b :: r := rfl

theorem skipWs_cons_end (nm : String) (r : List Tok) :
    skipWs (.endEl nm :: r) = .endEl nm :: r := rfl

theorem validProps_length (ps : List PropDesc) :
    ∀ ss, validProps ps ss = true → ss.length = ps.length := by
  induction ps with
  | nil =>
    intro ss h
    rw [validProps_nil ss h]
    rfl
  | cons p ps1 ih =>
    intro ss h
    obtain ⟨s, ss1, rfl, hv1, -, -⟩ := validProps_cons p ps1 ss h
    rw [List.length_cons, List.length_cons, ih ss1 hv1]

theorem encodeItems_nil (impls : List ClassDesc) (items : List Value)
    (h : encodeItems impls items = some []) : items = [] := by
  cases items with
  | nil => rfl
  | cons w ws =>
    cases w with
    | vbool b => simp [encodeItems] at h
    | vint i => simp [encodeItems] at h
    | vfloat x => simp [encodeItems] at h
    | vstr a => simp [encodeItems] at h
    | vbytes bs => simp [encodeItems] at h
    | venum a => simp [encodeItems] at h
    | vlist l => simp [encodeItems] at h
    | vobj nm slots =>
      rw [encodeItems] at h
      rcases hfi : findImpl impls nm with _ | cl <;> rw [hfi] at h <;>
        dsimp only at h
      · simp at h
      · rcases h1 : encodeProps cl.props slots with _ | c1 <;> rw [h1] at h
        · simp at h
        · rcases h2 : encodeItems impls ws with _ | r2 <;> rw [h2] at h
          · simp at h
          · simp only [Option.some.injEq] at h
            exact absurd h (by
              intro hh
              rcases List.append_eq_nil.mp hh with ⟨hw, -⟩
              exact writeElem_ne_nil nm c1 hw)

theorem rt_master : ∀ m : Nat,
    SeqLoopRT m ∧ SeqRT m ∧ ClsRT m ∧ IfaceRT m ∧ ItemsRT m ∧ PropRT m := by
  intro m
  induction m with
  | zero =>
    refine ⟨?_, ?_, ?_, ?_, ?_, ?_⟩
    · intro ss cn PS ps k slots0 stoks stop fuel hm
      exact absurd hm (by have := needSlots_pos ss; omega)
    · intro c ss stoks fuel hm
      exact absurd hm (by have := needSlots_pos ss; omega)
    · intro cd ss doc rest fuel hm
      exact absurd hm (by have := needSlots_pos ss; omega)
    · intro impls nm c ss doc rest fuel hm
      exact absurd hm (by have := needSlots_pos ss; omega)
    · intro items dis idx acc itoks stop fuel hm
      exact absurd hm (by have := needItems_pos items; omega)
    · intro t v ctoks cls nm opt fuel hm
      exact absurd hm (by have := needV_pos v; omega)
  | succ m ih =>
    obtain ⟨ihA, ihB, ihC, ihD, ihF, ihE⟩ := ih
    have hA : SeqLoopRT (m + 1) := by
      intro ss
      induction ss with
      | nil =>
        intro cn PS ps k slots0 stoks stop fuel hm hdrop hnd hvp he hlen
          hnws hstop hfuel
        rcases ps with _ | ⟨p, ps1⟩
        · simp only [encodeProps, Option.some.injEq] at he
          subst he
          obtain ⟨f, rfl⟩ : ∃ f, fuel = f + 1 :=
            ⟨fuel - 1, by simp [needSlots] at hfuel; omega⟩
          rw [updSome, List.nil_append]
          cases stop with
          | nil =>
            rw [seqLoop]
            intro nm b r1 h
            exact List.noConfusion h
          | cons t rest =>
            cases t with
            | endEl en =>
              rw [seqLoop]
              intro nm b r1 h
              injection h with h1 h2
              exact Tok.noConfusion h1
            | start a b => simp [stopTok] at hstop
            | content a => simp [stopTok] at hstop
            | ws => simp [stopTok] at hstop
        · simp [validProps] at hvp
      | cons s ss1 ihSS =>
        intro cn PS ps k slots0 stoks stop fuel hm hdrop hnd hvp he hlen
          hnws hstop hfuel
        rcases ps with _ | ⟨p, ps1⟩
        · simp [validProps] at hvp
        obtain ⟨pn, po, pt⟩ := p
        have hdrop1 : PS.drop (k + 1) = ps1 := by
          have h1 : List.drop 1 (List.drop k PS) = List.drop (k + 1) PS :=
            List.drop_drop 1 k PS
          rw [hdrop] at h1
          simpa using h1.symm
        cases s with
        | none =>
          simp only [validProps, Bool.and_eq_true] at hvp
          obtain ⟨hopt, hvp1⟩ := hvp
          rw [encodeProps, if_pos hopt] at he
          rw [updSome]
          exact ihSS cn PS ps1 (k + 1) slots0 stoks stop fuel
            (by simp [needSlots] at hm; omega) hdrop1 hnd hvp1 he hlen
            hnws hstop (by simp [needSlots] at hfuel; omega)
        | some v =>
          simp only [validProps, Bool.and_eq_true] at hvp
          obtain ⟨hvv, hvp1⟩ := hvp
          obtain ⟨c0, rest0, henc0, hencP, rfl⟩ :=
            encodeProps_cons_some ⟨pn, po, pt⟩ ps1 v ss1 stoks he
          simp only [PropDesc.name, PropDesc.ty] at henc0 ⊢
          have hmV : needV v ≤ m := by simp [needSlots] at hm; omega
          obtain ⟨f, rfl⟩ : ∃ f, fuel = f + 1 :=
            ⟨fuel - 1, by simp [needSlots] at hfuel; omega⟩
          have hfV : needV v ≤ f := by
            simp [needSlots] at hfuel
            have := needSlots_pos ss1
            omega
          have hnwR : noWs rest0 = true :=
            (enc_noWs (needSlots ss1)).2.1 ps1 ss1 rest0 (le_refl _) hencP
          have hfp : findProp PS pn = some (k, ⟨pn, po, pt⟩) := by
            have := findProp_nodup PS k ⟨pn, po, pt⟩ ps1 hnd hdrop
            simpa [PropDesc.name] using this
          have hE := ihE pt v c0 cn pn po f hmV
            (by simpa [PropDesc.ty] using hvv)
            (by simpa [PropDesc.ty] using henc0) hfV
          have hnwRS : noWs (rest0 ++ stop) = true := by
            rw [noWs_append, hnwR, hnws]
            rfl
          have hupd : updSome slots0 k (some v :: ss1)
              = updSome (slots0.set k (some v)) (k + 1) ss1 := by
            rw [updSome]
          have hlen1 : (slots0.set k (some v)).length = PS.length := by
            rw [List.length_set]
            exact hlen
          by_cases hc0 : c0 = []
          · subst hc0
            have hdp := hE.1 rfl (rest0 ++ stop)
            rw [show writeElem pn [] = [Tok.start pn true] from rfl]
            simp only [List.cons_append, List.nil_append, List.append_assoc,
              List.singleton_append]
            rw [seqLoop]
            simp only [ClassDesc.props, ClassDesc.name, hfp, hdp, if_true]
            rw [skipWs_noWs _ hnwRS]
            rw [hupd]
            rcases hre : rest0 ++ stop with _ | ⟨t2, rest2⟩
            · simp only [List.isEmpty_nil, if_true]
              obtain ⟨hr0, hst⟩ := List.append_eq_nil.mp hre
              subst hr0
              subst hst
              rw [encodeProps_nil_spec ps1 ss1 hvp1 hencP,
                updSome_replicate_none]
            · simp only [List.isEmpty_cons, Bool.false_eq_true, if_false]
              rw [← hre]
              exact ihSS cn PS ps1 (k + 1) (slots0.set k (some v)) rest0
                stop f (by simp [needSlots] at hm; omega) hdrop1 hnd hvp1
                hencP hlen1 hnws hstop
                (by simp [needSlots] at hfuel; have := needV_pos v; omega)
          · have hdp := hE.2 pn (rest0 ++ stop) hnwRS hc0
            rw [show writeElem pn c0
                = Tok.start pn false :: (c0 ++ [Tok.endEl pn]) from by
              unfold writeElem
              rw [if_neg (by simpa using hc0)]]
            simp only [List.cons_append, List.nil_append, List.append_assoc,
              List.singleton_append]
            rw [seqLoop]
            simp only [ClassDesc.props, ClassDesc.name, hfp, hdp]
            rw [show skipWs (Tok.endEl pn :: (rest0 ++ stop))
                = Tok.endEl pn :: (rest0 ++ stop) from rfl]
            simp only [Bool.false_eq_true, if_false, bne_self_eq_false]
            rw [skipWs_noWs _ hnwRS]
            rw [hupd]
            rcases hre : rest0 ++ stop with _ | ⟨t2, rest2⟩
            · simp only [List.isEmpty_nil, if_true]
              obtain ⟨hr0, hst⟩ := List.append_eq_nil.mp hre
              subst hr0
              subst hst
              rw [encodeProps_nil_spec ps1 ss1 hvp1 hencP,
                updSome_replicate_none]
            · simp only [List.isEmpty_cons, Bool.false_eq_true, if_false]
              rw [← hre]
              exact ihSS cn PS ps1 (k + 1) (slots0.set k (some v)) rest0
                stop f (by simp [needSlots] at hm; omega) hdrop1 hnd hvp1
                hencP hlen1 hnws hstop
                (by simp [needSlots] at hfuel; have := needV_pos v; omega)
    have hB : SeqRT (m + 1) := by
      intro c ss stoks fuel hm hnd hvp he hfuel
      obtain ⟨cn, cps⟩ := c
      simp only [ClassDesc.props, ClassDesc.name] at hnd hvp he ⊢
      obtain ⟨f, rfl⟩ : ∃ f, fuel = f + 1 := ⟨fuel - 1, by omega⟩
      constructor
      · intro h0 r
        subst h0
        cases cps with
        | nil =>
          have hss := validProps_nil ss hvp
          subst hss
          rfl
        | cons p ps1 =>
          have hss := encodeProps_nil_spec (p :: ps1) ss hvp he
          have hfm : firstMissing (p :: ps1)
              (List.replicate (p :: ps1).length none) = none := by
            rw [← hss]
            exact validFirstMissing (p :: ps1) ss hvp
          rw [clsFromSequence]
          simp only [ClassDesc.props, ClassDesc.name, if_true, hfm]
          rw [← hss]
      · intro stop hnws hstop hne
        cases cps with
        | nil =>
          have hss := validProps_nil ss hvp
          subst hss
          simp only [encodeProps, Option.some.injEq] at he
          exact absurd he.symm hne
        | cons p ps1 =>
          have hnw1 : noWs stoks = true :=
            (enc_noWs (needSlots ss)).2.1 _ ss stoks (le_refl _) he
          have hnwss : noWs (stoks ++ stop) = true := by
            rw [noWs_append, hnw1, hnws]
            rfl
          have hA1 := hA ss cn (p :: ps1) (p :: ps1) 0
            (List.replicate (p :: ps1).length none) stoks stop f
            (by omega) (by rw [List.drop_zero]) hnd hvp he
            (by rw [List.length_replicate]) hnws hstop (by omega)
          have hlenss : ss.length = (p :: ps1).length :=
            validProps_length (p :: ps1) ss hvp
          have hupd2 : updSome (List.replicate (p :: ps1).length none) 0 ss
              = ss := by
            rw [← hlenss]
            exact updSome_replicate ss
          have hfm := validFirstMissing (p :: ps1) ss hvp
          have hnil : (stoks ++ stop).isEmpty = false := by
            cases stoks with
            | nil => exact absurd rfl hne
            | cons a as => rfl
          rw [clsFromSequence]
          simp only [ClassDesc.props, ClassDesc.name, Bool.false_eq_true,
            if_false]
          rw [skipWs_noWs _ hnwss, hnil]
          simp only [Bool.false_eq_true, if_false]
          rw [hA1, hupd2]
          simp only [hfm]
    have hC : ClsRT (m + 1) := by
      intro cd ss doc rest fuel hm hnd hvp he hnws hfuel
      rw [encodeClsElem] at he
      rcases h1 : encodeProps cd.props ss with _ | stoks <;> rw [h1] at he
      · simp at he
      · simp only [Option.map_some', Option.some.injEq] at he
        subst he
        obtain ⟨f, rfl⟩ : ∃ f, fuel = f + 1 := ⟨fuel - 1, by omega⟩
        have hB1 := hB cd ss stoks f (by omega) hnd hvp h1 (by omega)
        by_cases hc0 : stoks = []
        · subst hc0
          rw [show writeElem cd.name [] = [Tok.start cd.name true] from rfl]
          simp only [List.singleton_append]
          rw [clsFromElement, skipWs_cons_start]
          simp only [bne_self_eq_false, Bool.false_eq_true, if_false]
          rw [hB1.1 rfl rest]
          simp only [if_true]
          rw [skipWs_noWs rest hnws]
        · rw [show writeElem cd.name stoks
              = Tok.start cd.name false :: (stoks ++ [Tok.endEl cd.name]) from by
            unfold writeElem
            rw [if_neg (by simpa using hc0)]]
          simp only [List.cons_append, List.append_assoc,
            List.singleton_append, List.nil_append]
          rw [clsFromElement, skipWs_cons_start]
          simp only [bne_self_eq_false, Bool.false_eq_true, if_false]
          rw [hB1.2 (Tok.endEl cd.name :: rest)
            (by simp [noWs, isWsTok] at hnws ⊢; exact hnws) rfl hc0]
          simp only [Bool.false_eq_true, if_false]
          rw [skipWs_cons_end]
          simp only [bne_self_eq_false, Bool.false_eq_true, if_false]
    have hD : IfaceRT (m + 1) := by
      intro impls nm c ss doc rest fuel hm hf hnd hvp he hnws hfuel
      have hcn : c.name = nm := findImpl_name impls nm c hf
      subst hcn
      obtain ⟨f, rfl⟩ : ∃ f, fuel = f + 1 := ⟨fuel - 1, by omega⟩
      have hC1 := hC c ss doc rest f hm hnd hvp he hnws (by omega)
      rw [encodeClsElem] at he
      rcases h1 : encodeProps c.props ss with _ | stoks <;> rw [h1] at he
      · simp at he
      · simp only [Option.map_some', Option.some.injEq] at he
        subst he
        by_cases hc0 : stoks = []
        · subst hc0
          rw [show writeElem c.name [] = [Tok.start c.name true] from rfl]
            at hC1 ⊢
          simp only [List.singleton_append] at hC1 ⊢
          rw [interfaceFromElement, skipWs_cons_start]
          dsimp only
          rw [hf]
          exact hC1
        · rw [show writeElem c.name stoks
              = Tok.start c.name false :: (stoks ++ [Tok.endEl c.name]) from by
            unfold writeElem
            rw [if_neg (by simpa using hc0)]] at hC1 ⊢
          simp only [List.cons_append, List.append_assoc,
            List.singleton_append, List.nil_append] at hC1 ⊢
          rw [interfaceFromElement, skipWs_cons_start]
          dsimp only
          rw [hf]
          exact hC1
    have hF : ItemsRT (m + 1) := by
      intro items
      induction items with
      | nil =>
        intro dis idx acc itoks stop fuel hm hvi he hnws hstop hfuel
        simp only [encodeItems, Option.some.injEq] at he
        subst he
        obtain ⟨f, rfl⟩ : ∃ f, fuel = f + 1 :=
          ⟨fuel - 1, by simp [needItems] at hfuel; omega⟩
        rw [List.nil_append, List.append_nil]
        cases stop with
        | nil =>
          rw [listLoop]
          intro nm b r1 h
          exact List.noConfusion h
        | cons t rest =>
          cases t with
          | endEl en =>
            rw [listLoop]
            intro nm b r1 h
            injection h with h1 h2
            exact Tok.noConfusion h1
          | start a b => simp [stopTok] at hstop
          | content a => simp [stopTok] at hstop
          | ws => simp [stopTok] at hstop
      | cons v vs ihVS =>
        intro dis idx acc itoks stop fuel hm hvi he hnws hstop hfuel
        cases v with
        | vbool b => simp [validItems] at hvi
        | vint i => simp [validItems] at hvi
        | vfloat x => simp [validItems] at hvi
        | vstr a => simp [validItems] at hvi
        | vbytes bs => simp [validItems] at hvi
        | venum a => simp [validItems] at hvi
        | vlist l => simp [validItems] at hvi
        | vobj nm slots =>
          rw [validItems, Bool.and_eq_true] at hvi
          obtain ⟨hv1, hvs⟩ := hvi
          rcases hfi : findImpl (disClasses dis) nm with _ | cl <;>
            rw [hfi] at hv1 <;> dsimp only at hv1
          · exact absurd hv1 (by simp)
          rw [Bool.and_eq_true] at hv1
          obtain ⟨hnd1, hvp1⟩ := hv1
          rw [encodeItems, hfi] at he
          dsimp only at he
          rcases h1 : encodeProps cl.props slots with _ | c1 <;> rw [h1] at he
          · simp at he
          rcases h2 : encodeItems (disClasses dis) vs with _ | restI <;>
            rw [h2] at he
          · simp at he
          simp only [Option.some.injEq] at he
          subst he
          have hcn : cl.name = nm := findImpl_name _ _ _ hfi
          subst hcn
          obtain ⟨f, rfl⟩ : ∃ f, fuel = f + 1 :=
            ⟨fuel - 1, by simp [needItems] at hfuel; omega⟩
          have hencCls : encodeClsElem cl slots = some (writeElem cl.name c1) := by
            rw [encodeClsElem, h1, Option.map_some']
          have hmS : needSlots slots ≤ m + 1 := by
            simp [needItems, needV] at hm
            omega
          have hnwI : noWs restI = true :=
            (enc_noWs (needItems vs)).2.2 _ vs restI (le_refl _) h2
          have hnwRS : noWs (restI ++ stop) = true := by
            rw [noWs_append, hnwI, hnws]
            rfl
          have hfC : needSlots slots + 3 ≤ f := by
            simp [needItems, needV] at hfuel
            have := needItems_pos vs
            omega
          have hfVS : needItems vs ≤ f := by
            simp [needItems, needV] at hfuel
            have := needSlots_pos slots
            omega
          have hmVS : needItems vs ≤ m + 1 := by
            simp [needItems, needV] at hm
            have := needSlots_pos slots
            omega
          rw [List.append_assoc]
          rcases dis with c0 | impls
          · have hclc : cl = c0 := by
              rw [disClasses, findImpl] at hfi
              by_cases hb : (c0.name == cl.name) = true
              · rw [if_pos hb] at hfi
                injection hfi with h
                exact h.symm
              · rw [if_neg hb] at hfi
                rw [findImpl] at hfi
                exact absurd hfi (by simp)
            subst hclc
            have hItem := hC cl slots (writeElem cl.name c1) (restI ++ stop) f
              hmS hnd1 hvp1 hencCls hnwRS (by omega)
            have hTail := ihVS (Sum.inl cl) (idx + 1)
              (acc ++ [Value.vobj cl.name slots]) restI stop f hmVS hvs h2
              hnws hstop hfVS
            by_cases hc0 : c1 = []
            · subst hc0
              rw [show writeElem cl.name [] = [Tok.start cl.name true] from
                rfl] at hItem ⊢
              simp only [List.singleton_append] at hItem ⊢
              simp only [listLoop, hItem]
              rw [skipWs_noWs _ hnwRS, hTail]
              simp
            · rw [show writeElem cl.name c1
                  = Tok.start cl.name false :: (c1 ++ [Tok.endEl cl.name])
                  from by
                unfold writeElem
                rw [if_neg (by simpa using hc0)]] at hItem ⊢
              simp only [List.cons_append, List.append_assoc,
                List.singleton_append, List.nil_append] at hItem ⊢
              simp only [listLoop, hItem]
              rw [skipWs_noWs _ hnwRS, hTail]
              simp
          · have hItem := hD impls cl.name cl slots (writeElem cl.name c1)
              (restI ++ stop) f hmS hfi hnd1 hvp1 hencCls hnwRS (by omega)
            have hTail := ihVS (Sum.inr impls) (idx + 1)
              (acc ++ [Value.vobj cl.name slots]) restI stop f hmVS hvs h2
              hnws hstop hfVS
            by_cases hc0 : c1 = []
            · subst hc0
              rw [show writeElem cl.name [] = [Tok.start cl.name true] from
                rfl] at hItem ⊢
              simp only [List.singleton_append] at hItem ⊢
              simp only [listLoop, hItem]
              rw [skipWs_noWs _ hnwRS, hTail]
              simp
            · rw [show writeElem cl.name c1
                  = Tok.start cl.name false :: (c1 ++ [Tok.endEl cl.name])
                  from by
                unfold writeElem
                rw [if_neg (by simpa using hc0)]] at hItem ⊢
              simp only [List.cons_append, List.append_assoc,
                List.singleton_append, List.nil_append] at hItem ⊢
              simp only [listLoop, hItem]
              rw [skipWs_noWs _ hnwRS, hTail]
              simp
    have hE : PropRT (m + 1) := by
      intro t v ctoks cls nm opt fuel hm hvv henc hfuel
      obtain ⟨f, rfl⟩ : ∃ f, fuel = f + 1 :=
        ⟨fuel - 1, by have := needV_pos v; omega⟩
      cases t with
      | prim k =>
        cases k with
        | bool =>
          cases v <;> simp only [validVal, Bool.false_eq_true] at hvv
          case vbool b =>
          simp only [encodeVal, Option.some.injEq] at henc
          subst henc
          exact ⟨fun h => absurd h (by simp), fun en rest _ _ => rfl⟩
        | int =>
          cases v <;> simp only [validVal, Bool.false_eq_true] at hvv
          case vint i =>
          simp only [encodeVal, Option.some.injEq] at henc
          subst henc
          exact ⟨fun h => absurd h (by simp), fun en rest _ _ => rfl⟩
        | float =>
          cases v <;> simp only [validVal, Bool.false_eq_true] at hvv
          case vfloat x =>
          simp only [encodeVal, Option.some.injEq] at henc
          subst henc
          exact ⟨fun h => absurd h (by simp), fun en rest _ _ => rfl⟩
        | str =>
          cases v <;> simp only [validVal, Bool.false_eq_true] at hvv
          case vstr a =>
          simp only [encodeVal, Option.some.injEq] at henc
          subst henc
          exact ⟨fun h => absurd h (by simp), fun en rest _ _ => rfl⟩
        | bytes =>
          cases v <;> simp only [validVal, Bool.false_eq_true] at hvv
          case vbytes bs =>
          have hbs : bs.isEmpty = false := by
            cases hb : bs.isEmpty
            · rfl
            · rw [hb] at hvv
              exact absurd hvv (by simp)
          simp only [encodeVal, hbs, Bool.false_eq_true, if_false,
            Option.some.injEq] at henc
          subst henc
          refine ⟨fun h => absurd h (by simp), fun en rest _ _ => ?_⟩
          simp only [List.cons_append, List.nil_append]
          simp only [decodeProp, PropDesc.ty, PropDesc.name, readPrim,
            readBytes, List.isEmpty_cons, Bool.false_eq_true, if_false]
          simp
      | enum tbl =>
        cases v <;> simp only [validVal, Bool.false_eq_true] at hvv
        case venum a =>
        simp only [encodeVal, hvv, if_true, Option.some.injEq] at henc
        subst henc
        refine ⟨fun h => absurd h (by simp), fun en rest _ _ => ?_⟩
        simp only [List.cons_append, List.nil_append]
        simp only [decodeProp, PropDesc.ty, PropDesc.name, readPrim,
          List.isEmpty_cons, Bool.false_eq_true, if_false, hvv, if_true]
      | record c1 =>
        cases v <;> simp only [validVal, Bool.false_eq_true] at hvv
        case vobj onm slots =>
        rw [Bool.and_eq_true, Bool.and_eq_true] at hvv
        obtain ⟨⟨honm, hnd1⟩, hvp1⟩ := hvv
        have honm2 : onm = c1.name := eq_of_beq honm
        subst honm2
        rw [encodeVal] at henc
        have hmS : needSlots slots ≤ m + 1 := by
          simp only [needV] at hm
          omega
        have hB1 := hB c1 slots ctoks f hmS hnd1 hvp1 henc
          (by simp only [needV] at hfuel; omega)
        constructor
        · intro h0 r
          simp only [decodeProp, PropDesc.ty, PropDesc.name]
          rw [hB1.1 h0 r]
        · intro en rest hnws hne
          simp only [decodeProp, PropDesc.ty, PropDesc.name]
          rw [hB1.2 (Tok.endEl en :: rest)
            (by simp [noWs, isWsTok] at hnws ⊢; exact hnws) rfl hne]
      | poly impls =>
        cases v <;> simp only [validVal, Bool.false_eq_true] at hvv
        case vobj onm slots =>
        rcases hfi : findImpl impls onm with _ | cl <;> rw [hfi] at hvv <;>
          dsimp only at hvv
        · exact absurd hvv (by simp)
        rw [Bool.and_eq_true] at hvv
        obtain ⟨hnd1, hvp1⟩ := hvv
        rw [encodeVal, hfi] at henc
        dsimp only at henc
        rcases h1 : encodeProps cl.props slots with _ | c1 <;> rw [h1] at henc
        · simp at henc
        simp only [Option.map_some', Option.some.injEq] at henc
        subst henc
        have hcn := findImpl_name impls onm cl hfi
        have hencCls : encodeClsElem cl slots = some (writeElem onm c1) := by
          rw [encodeClsElem, h1, Option.map_some', hcn]
        have hmS : needSlots slots ≤ m + 1 := by
          simp only [needV] at hm
          omega
        refine ⟨fun h0 => absurd h0 (writeElem_ne_nil onm c1),
          fun en rest hnws hne => ?_⟩
        have hD1 := hD impls onm cl slots (writeElem onm c1)
          (Tok.endEl en :: rest) f hmS hfi hnd1 hvp1 hencCls
          (by simp [noWs, isWsTok] at hnws ⊢; exact hnws)
          (by simp only [needV] at hfuel; omega)
        rw [hcn] at hD1
        simp only [decodeProp, PropDesc.ty, PropDesc.name]
        have hni : (writeElem onm c1 ++ Tok.endEl en :: rest).isEmpty
            = false := by
          cases hw : writeElem onm c1 with
          | nil => exact absurd hw (writeElem_ne_nil _ _)
          | cons a as => rfl
        simp only [hni, Bool.false_eq_true, if_false]
        rw [hD1]
      | listRec c1 =>
        cases v <;> simp only [validVal, Bool.false_eq_true] at hvv
        case vlist items =>
        rw [encodeVal] at henc
        have hmI : needItems items ≤ m + 1 := by
          simp only [needV] at hm
          omega
        have hfI : needItems items ≤ f := by
          simp only [needV] at hfuel
          omega
        constructor
        · intro h0 r
          rw [h0] at henc
          have hitems := encodeItems_nil [c1] items henc
          subst hitems
          simp only [decodeProp, PropDesc.ty, if_true]
        · intro en rest hnws hne
          have hF1 := hF items (Sum.inl c1) 0 [] ctoks
            (Tok.endEl en :: rest) f hmI hvv henc
            (by simp [noWs, isWsTok] at hnws ⊢; exact hnws) rfl hfI
          have hnwC : noWs ctoks = true :=
            (enc_noWs (needItems items)).2.2 [c1] items ctoks (le_refl _) henc
          simp only [decodeProp, PropDesc.ty, PropDesc.name,
            Bool.false_eq_true, if_false]
          rw [skipWs_noWs _ (by
            rw [noWs_append, hnwC]
            simp [noWs, isWsTok] at hnws ⊢
            exact hnws)]
          rw [hF1]
          simp
      | listPoly impls =>
        cases v <;> simp only [validVal, Bool.false_eq_true] at hvv
        case vlist items =>
        rw [encodeVal] at henc
        have hmI : needItems items ≤ m + 1 := by
          simp only [needV] at hm
          omega
        have hfI : needItems items ≤ f := by
          simp only [needV] at hfuel
          omega
        constructor
        · intro h0 r
          rw [h0] at henc
          have hitems := encodeItems_nil impls items henc
          subst hitems
          simp only [decodeProp, PropDesc.ty, if_true]
        · intro en rest hnws hne
          have hF1 := hF items (Sum.inr impls) 0 [] ctoks
            (Tok.endEl en :: rest) f hmI hvv henc
            (by simp [noWs, isWsTok] at hnws ⊢; exact hnws) rfl hfI
          have hnwC : noWs ctoks = true :=
            (enc_noWs (needItems items)).2.2 impls items ctoks (le_refl _) henc
          simp only [decodeProp, PropDesc.ty, PropDesc.name,
            Bool.false_eq_true, if_false]
          rw [skipWs_noWs _ (by
            rw [noWs_append, hnwC]
            simp [noWs, isWsTok] at hnws ⊢
            exact hnws)]
          rw [hF1]
          simp
    exact ⟨hA, hB, hC, hD, hF, hE⟩


/-! ## Totality of the encoder on valid instances

A valid instance always encodes: ToSequence is total C# code, and the
validity predicate rules out exactly the cases where the embedding
returns none (type mismatches, enum literals outside the wire table,
unregistered dispatch classes, absent required slots). -/

theorem enc_total : ∀ m : Nat,
    (∀ t v, needV v ≤ m → validVal t v = true → (encodeVal t v).isSome = true)
    ∧ (∀ ps ss, needSlots ss ≤ m → validProps ps ss = true →
        (encodeProps ps ss).isSome = true)
    ∧ (∀ impls items, needItems items ≤ m → validItems impls items = true →
        (encodeItems impls items).isSome = true) := by
  intro m
  induction m with
  | zero =>
    refine ⟨fun t v hm _ => absurd hm (by have := needV_pos v; omega),
      fun ps ss hm _ => absurd hm (by have := needSlots_pos ss; omega),
      fun impls items hm _ => absurd hm (by have := needItems_pos items; omega)⟩
  | succ m ih =>
    obtain ⟨ihV, ihS, ihI⟩ := ih
    have hV : ∀ t v, needV v ≤ m + 1 → validVal t v = true →
        (encodeVal t v).isSome = true := by
      intro t v hm hv
      cases t with
      | prim pk =>
        cases pk <;> cases v <;>
          simp only [validVal, Bool.false_eq_true] at hv <;>
          simp [encodeVal]
      | enum tbl =>
        cases v <;> simp only [validVal, Bool.false_eq_true] at hv
        case venum s => simp only [encodeVal, hv, if_true, Option.isSome_some]
      | record c =>
        cases v <;> simp only [validVal, Bool.false_eq_true] at hv
        case vobj nm slots =>
          simp only [needV] at hm
          simp only [Bool.and_eq_true] at hv
          obtain ⟨⟨_, _⟩, hvp⟩ := hv
          simp only [encodeVal]
          exact ihS c.props slots (by omega) hvp
      | poly impls =>
        cases v <;> simp only [validVal, Bool.false_eq_true] at hv
        case vobj nm slots =>
          simp only [needV] at hm
          cases hfi : findImpl impls nm with
          | none => rw [hfi] at hv; simp at hv
          | some c =>
            rw [hfi] at hv
            dsimp only at hv
            simp only [Bool.and_eq_true] at hv
            obtain ⟨_, hvp⟩ := hv
            have h1 := ihS c.props slots (by omega) hvp
            obtain ⟨w, hw⟩ := Option.isSome_iff_exists.mp h1
            simp [encodeVal, hfi, hw]
      | listRec c =>
        cases v <;> simp only [validVal, Bool.false_eq_true] at hv
        case vlist items =>
          simp only [needV] at hm
          simp only [encodeVal]
          exact ihI [c] items (by omega) hv
      | listPoly impls =>
        cases v <;> simp only [validVal, Bool.false_eq_true] at hv
        case vlist items =>
          simp only [needV] at hm
          simp only [encodeVal]
          exact ihI impls items (by omega) hv
    have hS : ∀ ss ps, needSlots ss ≤ m + 1 → validProps ps ss = true →
        (encodeProps ps ss).isSome = true := by
      intro ss
      induction ss with
      | nil =>
        intro ps hm hvp
        cases ps with
        | nil => simp [encodeProps]
        | cons p ps1 => simp [validProps] at hvp
      | cons s ss1 ihss =>
        intro ps hm hvp
        cases ps with
        | nil => simp [validProps] at hvp
        | cons p ps1 =>
          cases s with
          | none =>
            simp only [validProps, Bool.and_eq_true] at hvp
            obtain ⟨hopt, hvp1⟩ := hvp
            simp only [needSlots] at hm
            simp only [encodeProps, hopt, if_true]
            exact ihss ps1 (by omega) hvp1
          | some v =>
            simp only [validProps, Bool.and_eq_true] at hvp
            obtain ⟨hvv, hvp1⟩ := hvp
            simp only [needSlots] at hm
            have h1 := hV p.ty v (by have := needSlots_pos ss1; omega) hvv
            have h2 := ihss ps1 (by have := needV_pos v; omega) hvp1
            obtain ⟨c, hc⟩ := Option.isSome_iff_exists.mp h1
            obtain ⟨r, hr⟩ := Option.isSome_iff_exists.mp h2
            simp [encodeProps, hc, hr]
    have hI : ∀ impls items, needItems items ≤ m + 1 →
        validItems impls items = true → (encodeItems impls items).isSome = true := by
      intro impls items
      induction items with
      | nil => intro _ _; simp [encodeItems]
      | cons v vs ihvs =>
        intro hm hvi
        cases v <;> simp only [validItems, Bool.false_eq_true] at hvi
        case vobj nm slots =>
          simp only [needItems, needV] at hm
          simp only [Bool.and_eq_true] at hvi
          obtain ⟨hcl, hrest⟩ := hvi
          cases hfi : findImpl impls nm with
          | none => rw [hfi] at hcl; simp at hcl
          | some c =>
            rw [hfi] at hcl
            dsimp only at hcl
            simp only [Bool.and_eq_true] at hcl
            obtain ⟨_, hvp⟩ := hcl
            have h1 := hS slots c.props (by omega) hvp
            have h2 := ihvs (by omega) hrest
            obtain ⟨w1, hw1⟩ := Option.isSome_iff_exists.mp h1
            obtain ⟨w2, hw2⟩ := Option.isSome_iff_exists.mp h2
            simp [encodeItems, hfi, hw1, hw2]
    exact ⟨hV, fun ps ss hm hv => hS ss ps hm hv, hI⟩

/-- Claim C1, counterexample: the round trip fails on a valid C# instance
holding an empty byte sequence.  Encoding class C with a required bytes
property v set to the empty byte array writes no content for v, so the
property element collapses to a self-closing tag on the wire; decoding
that very document fails with the needs-content error at path [Name "v"]
instead of returning the instance. -/
theorem c1_counterexample :
    encodeClsElem ⟨"C", [⟨"v", false, .prim .bytes⟩]⟩ [some (.vbytes [])]
      = some [.start "C" false, .start "v" true, .endEl "C"]
    ∧ clsFromElement 9 ⟨"C", [⟨"v", false, .prim .bytes⟩]⟩
        [.start "C" false, .start "v" true, .endEl "C"]
      = .ret (some ⟨.needsContent "C" "v", [.name "v"]⟩) none
          [.start "v" true, .endEl "C"] := by
  refine ⟨?_, rfl⟩
  simp [encodeClsElem, encodeProps, encodeVal, writeElem, ClassDesc.props,
    ClassDesc.name, PropDesc.ty, PropDesc.name]

/-- Claim C1 (amended): for every instance of a concrete schema class
that is valid AND in which every byte-sequence value is non-empty
(validVal / validProps include that extra condition), encoding the
instance succeeds and decoding the resulting document with FromElement
yields an instance structurally equal to the original, consuming the
whole document. -/
theorem c1_round_trip (cd : ClassDesc) (ss : List (Option Value)) (fuel : Nat)
    (hnd : nodupNames cd.props = true)
    (hvp : validProps cd.props ss = true)
    (hfuel : needSlots ss + 2 ≤ fuel) :
    ∃ doc, encodeClsElem cd ss = some doc ∧
      clsFromElement fuel cd doc = .ret none (some (.vobj cd.name ss)) [] := by
  have htot := (enc_total (needSlots ss)).2.1 cd.props ss (le_refl _) hvp
  obtain ⟨w, hw⟩ := Option.isSome_iff_exists.mp htot
  have hdoc : encodeClsElem cd ss = some (writeElem cd.name w) := by
    simp [encodeClsElem, hw]
  refine ⟨writeElem cd.name w, hdoc, ?_⟩
  have h := (rt_master (needSlots ss)).2.2.1 cd ss (writeElem cd.name w) [] fuel
    (le_refl _) hnd hvp hdoc rfl hfuel
  simpa using h

/-- Witness for the amended C1 at a concrete class and instance: class C
with a required string property v holding "hi" round-trips at fuel 20. -/
theorem c1_round_trip_witness :
    ∃ doc, encodeClsElem ⟨"C", [⟨"v", false, .prim .str⟩]⟩
        [some (.vstr "hi")] = some doc ∧
      clsFromElement 20 ⟨"C", [⟨"v", false, .prim .str⟩]⟩ doc
        = .ret none (some (.vobj "C" [some (.vstr "hi")])) [] :=
  c1_round_trip ⟨"C", [⟨"v", false, .prim .str⟩]⟩ [some (.vstr "hi")] 20
    (by decide) (by simp [validProps, validVal, ClassDesc.props, PropDesc.ty,
      PropDesc.optional])
    (by simp only [needSlots, needV]; omega)

end AasXmlization
